import Mathlib

/-!
# fast-concordance: whole-word keyword counting (`search.c`)

A shallow embedding of the search core of `search.c` and theorems about it.

Conventions of the embedding.

* A `char*` buffer is a `List Nat` holding the bytes that precede the final NUL
  terminator the loader writes (`read_all`); `cread` reads a byte and yields the
  terminator `0` at the index just past the list.  Interior NUL bytes are allowed in a
  buffer, `strlen` stops at the first one.
* `size_t` values are `Nat` and `ssize_t` values are `Int`; the result `-1` of a matcher is
  the literal `-1`.  Buffers are far smaller than `2^63` bytes, so none of the additions
  on offsets below wraps, and no `% 2^64` is written.
* `int` values (every `count`) are `Int` in `[-2^31, 2^31)`: each `count += ...` is followed
  by `int_wrap`, the two's complement wrap to 32 bits, because a text of 2 GiB can hold
  `2^31` matches.  The `int` locals of the print block (`full_match_len`, `match_len`) are
  not wrapped: they are bounded by the keyword length plus 40, and a keyword is a
  command-line argument, far shorter than `2^31` bytes.
* `while (1)` in `search_one` is a loop with fuel, one unit per call of the matcher; a run
  that is out of fuel is `none`.  The `for` loops of the matchers are bounded by the text
  and are given exactly the number of iterations their bound allows.
-/

namespace FastConcordance

/-! ## Buffers -/

/-- Read of `s[i]` in a NUL-terminated buffer: the byte at index `i`, the terminator past
the end. -/
def cread (s : List Nat) (i : Nat) : Nat := s.getD i 0

/-- C library `strlen`: the number of bytes before the first NUL. -/
def strlen : List Nat → Nat
  | [] => 0
  | b :: bs => if b = 0 then 0 else strlen bs + 1

/-- The bytes of a string literal, for concrete inputs. -/
def bytes (s : String) : List Nat := s.toList.map Char.toNat

/-- Type `str_search_t`: text, keyword, start offset, result offset or `-1`. -/
abbrev str_search_t := List Nat → List Nat → Nat → Int

/-- Record `struct text`. -/
structure text where
  filename : String
  contents : List Nat
  length : Nat

/-- Record `struct corpus`; `corpus.length` of the source is the number of loaded texts. -/
structure corpus where
  texts : List text

/-- Field `corpus.length`. -/
def corpus.length (c : corpus) : Nat := c.texts.length

/-- The value an `int` holds after an arithmetic result `x`: `x` reduced to 32 bits, two's
complement, that is the integer of `[-2^31, 2^31)` congruent to `x` modulo `2^32`.  C leaves
the overflow of an `int` undefined; the wrap is what the x86-64 targets of this AVX2
program compute, and whatever an overflowed `count` holds, it is not a number `>= 2^31`. -/
def int_wrap (x : Int) : Int := (x + 2147483648) % 4294967296 - 2147483648

/-- Function `is_letter`: `('a' <= c && c <= 'z') || ('A' <= c && c <= 'Z')`. -/
def is_letter (c : Nat) : Bool := (97 ≤ c && c ≤ 122) || (65 ≤ c && c ≤ 90)

/-! ## Matchers -/

/-- Inner loop of `stupid_str_search`: advances `j` while
`text[i + j] != 0 && keyword[j] != 0 && text[i + j] == keyword[j]`, and yields the final `j`. -/
def stupid_inner (txt keyword : List Nat) (i : Nat) : Nat → Nat → Nat
  | 0, j => j
  | fuel + 1, j =>
    if cread txt (i + j) ≠ 0 ∧ cread keyword j ≠ 0 ∧ cread txt (i + j) = cread keyword j then
      stupid_inner txt keyword i fuel (j + 1)
    else j

/-- Outer loop of `stupid_str_search`: `for (i = offset; text[i] != 0; i++)`. -/
def stupid_outer (txt keyword : List Nat) : Nat → Nat → Int
  | 0, _ => -1
  | fuel + 1, i =>
    if cread txt i ≠ 0 then
      let j := stupid_inner txt keyword i (keyword.length + 1) 0
      if cread keyword j = 0 then (i : Int)
      else stupid_outer txt keyword fuel (i + 1)
    else -1

/-- Function `stupid_str_search`.  The outer loop leaves at the first NUL, which is at an index
`<= txt.length`, so `txt.length + 1 - offset` iterations are all it can make. -/
def stupid_str_search : str_search_t := fun txt keyword offset =>
  stupid_outer txt keyword (txt.length + 1 - offset) offset

/-- Whether the string `s2` occurs in the string `s1` at index `i`: it fits before the
terminator of `s1` and each of its bytes equals the byte of `s1` at the same distance. -/
def occurs_at (s1 s2 : List Nat) (i : Nat) : Bool :=
  decide (i + strlen s2 ≤ strlen s1) &&
    (List.range (strlen s2)).all (fun k => cread s1 (i + k) == cread s2 k)

/-- Modelled from the spec: the C library function `strstr`, which `regular_str_search`
calls and which is not part of the repository.  ISO C: it locates the first occurrence in
the string `s1` of the sequence of characters (excluding the terminating null character)
in the string `s2`, and returns a pointer to the located string, or a null pointer if the
string is not found; if `s2` has zero length it returns `s1`.  The pointer is given as its
distance from `s1`, the null pointer as `none`. -/
def strstr (s1 s2 : List Nat) : Option Nat :=
  (List.range (strlen s1 + 1)).find? (fun i => occurs_at s1 s2 i)

/-- Function `regular_str_search`: `strstr(text + offset, keyword)`, and `p - text` when found. -/
def regular_str_search : str_search_t := fun txt keyword offset =>
  match strstr (txt.drop offset) keyword with
  | none => -1
  | some p => ((offset + p : Nat) : Int)

/-- A 256-bit vector as its 32 bytes, lowest address first. -/
abbrev m256i := List Nat

/-- Intrinsic `_mm256_loadu_si256((__m256i*)(p + i))`: the 32 bytes at `p + i`. -/
def mm256_loadu_si256 (p : List Nat) (i : Nat) : m256i :=
  (List.range 32).map (fun k => cread p (i + k))

/-- Intrinsic `_mm256_xor_si256`, byte by byte. -/
def mm256_xor_si256 (a b : m256i) : m256i := List.zipWith (fun x y => x ^^^ y) a b

/-- Intrinsic `_mm256_and_si256`, byte by byte. -/
def mm256_and_si256 (a b : m256i) : m256i := List.zipWith (fun x y => x &&& y) a b

/-- Intrinsic `_mm256_testz_si256(a, b)`: 1 when `a AND b` is all zero bits. -/
def mm256_testz_si256 (a b : m256i) : Bool :=
  (mm256_and_si256 a b).all (fun x => x == 0)

/-- Array `keyword_padded` after the fill loop: the keyword bytes, then zeros. -/
def keyword_padded (keyword : List Nat) (keyword_len : Nat) : List Nat :=
  (List.range 32).map (fun i => if i < keyword_len then cread keyword i else 0)

/-- Array `keyword_mask` after the fill loop: `0xFF` at the keyword positions, then zeros. -/
def keyword_mask (keyword_len : Nat) : List Nat :=
  (List.range 32).map (fun i => if i < keyword_len then 0xFF else 0)

/-- Scan loop of `simd_str_search`: `for (i = offset; i <= text_len - 32; i++)`. -/
def simd_loop (txt : List Nat) (keywordv mask : m256i) (text_len : Nat) : Nat → Nat → Int
  | 0, _ => -1
  | fuel + 1, i =>
    if i ≤ text_len - 32 then
      let textv := mm256_loadu_si256 txt i
      let r1 := mm256_xor_si256 textv keywordv
      let r2 := mm256_and_si256 r1 mask
      if mm256_testz_si256 r2 r2 then (i : Int)
      else simd_loop txt keywordv mask text_len fuel (i + 1)
    else -1

/-- Function `simd_str_search`.  The loop runs `i` from `offset` to `text_len - 32`, which is
`text_len - 32 + 1 - offset` iterations at most. -/
def simd_str_search : str_search_t := fun txt keyword offset =>
  let text_len := strlen txt
  let keyword_len := strlen keyword
  if text_len < 32 ∨ keyword_len > 32 then -1
  else
    let keywordv := mm256_loadu_si256 (keyword_padded keyword keyword_len) 0
    let mask := mm256_loadu_si256 (keyword_mask keyword_len) 0
    simd_loop txt keywordv mask text_len (text_len - 32 + 1 - offset) offset

/-! ## Boundary filter: `search_one` -/

/-- What a run of `search_one` has done: the value of `count`, and a record of its
observable steps in order: the offsets it passed to the matcher, the indices of
`text.contents` it read itself (the two boundary bytes), the indices it counted, and the
windows `(match_start, match_len)` it wrote. -/
structure run where
  count : Int
  calls : List Nat
  reads : List Int
  hits : List Int
  printed : List (Nat × Int)

/-- Local `match_context`. -/
def match_context : Nat := 20

/-- Local `match_start = (index >= match_context) ? (index - match_context) : 0`. -/
def match_start (index : Int) : Nat :=
  if index ≥ (match_context : Int) then (index - match_context).toNat else 0

/-- Local `full_match_len = (2 * match_context) + keyword_len`. -/
def full_match_len (keyword_len : Nat) : Nat := 2 * match_context + keyword_len

/-- Local `match_len = (match_start + full_match_len <= text.length) ? full_match_len :
(text.length - match_start)`. -/
def match_len (txt : text) (keyword_len : Nat) (index : Int) : Int :=
  if match_start index + full_match_len keyword_len ≤ txt.length then
    (full_match_len keyword_len : Int)
  else (txt.length : Int) - (match_start index : Int)

/-- The `while (1)` loop of `search_one`, one unit of fuel per call of `search_f`.
A matcher returns `-1` or an index, so `index + 1` is taken as a natural number. -/
def search_one_loop (search_f : str_search_t) (txt : text) (keyword : List Nat)
    (print_matches : Bool) : Nat → Nat → run → Option run
  | 0, _, _ => none
  | fuel + 1, offset, st =>
    let keyword_len := strlen keyword
    let index := search_f txt.contents keyword offset
    let st := { st with calls := st.calls ++ [offset] }
    if index = -1 then some st
    else
      let offset := (index + 1).toNat
      let st := if index > 0 then { st with reads := st.reads ++ [index - 1] } else st
      if index > 0 ∧ is_letter (cread txt.contents (index - 1).toNat) = true then
        search_one_loop search_f txt keyword print_matches fuel offset st
      else
        let st :=
          if index + keyword_len < txt.length then
            { st with reads := st.reads ++ [index + keyword_len] }
          else st
        if index + keyword_len < txt.length ∧
            is_letter (cread txt.contents (index + keyword_len).toNat) = true then
          search_one_loop search_f txt keyword print_matches fuel offset st
        else
          let st :=
            if print_matches then
              { st with printed := st.printed ++ [(match_start index, match_len txt keyword_len index)] }
            else st
          search_one_loop search_f txt keyword print_matches fuel offset
            { st with count := int_wrap (st.count + 1), hits := st.hits ++ [index] }

/-- The run of `search_one` from `count = 0`, `offset = 0`. -/
def search_one_run (fuel : Nat) (search_f : str_search_t) (txt : text) (keyword : List Nat)
    (print_matches : Bool) : Option run :=
  search_one_loop search_f txt keyword print_matches fuel 0 ⟨0, [], [], [], []⟩

/-- Function `search_one`: the count it returns, `none` when the loop is out of fuel. -/
def search_one (fuel : Nat) (search_f : str_search_t) (txt : text) (keyword : List Nat)
    (print_matches : Bool) : Option Int :=
  (search_one_run fuel search_f txt keyword print_matches).map (fun st => st.count)

/-! ## Workers and driver -/

/-- Record `struct thread_context` (`end` is written `end_`). -/
structure thread_context where
  search_f : str_search_t
  corpus : corpus
  start : Nat
  end_ : Nat
  keyword : List Nat

/-- The `for (i = ctx->start; i < ctx->end; i++)` loop of `search_thread`; the first
argument is the number of iterations left, `ctx->end - i`.  Reading `texts[i]` outside the
corpus gives no result. -/
def search_thread_loop (fuel : Nat) (ctx : thread_context) : Nat → Nat → Int → Option Int
  | 0, _, count => some count
  | n + 1, i, count =>
    match ctx.corpus.texts[i]? with
    | none => none
    | some t =>
      match search_one fuel ctx.search_f t ctx.keyword false with
      | none => none
      | some c => search_thread_loop fuel ctx n (i + 1) (int_wrap (count + c))

/-- Function `search_thread`: the count the worker returns. -/
def search_thread (fuel : Nat) (ctx : thread_context) : Option Int :=
  search_thread_loop fuel ctx (ctx.end_ - ctx.start) ctx.start 0

/-- The sequential `for (i = 0; i < corpus.length; i++)` loop of `main`. -/
def main_loop (fuel : Nat) (search_f : str_search_t) (c : corpus) (keyword : List Nat)
    (print_matches : Bool) : Nat → Nat → Int → Option Int
  | 0, _, count => some count
  | n + 1, i, count =>
    match c.texts[i]? with
    | none => none
    | some t =>
      match search_one fuel search_f t keyword print_matches with
      | none => none
      | some r =>
        main_loop fuel search_f c keyword print_matches n (i + 1) (int_wrap (count + r))

/-- The counting part of `main`: the value of `count` that is printed.  In parallel mode
the two workers only read the corpus, and `main` adds their results after joining them. -/
def main_count (fuel : Nat) (parallel : Bool) (search_f : str_search_t) (c : corpus)
    (keyword : List Nat) (print_matches : Bool) : Option Int :=
  if parallel then
    let midpoint := c.length / 2
    let ctx1 : thread_context := ⟨search_f, c, 0, midpoint, keyword⟩
    let ctx2 : thread_context := ⟨search_f, c, midpoint, c.length, keyword⟩
    match search_thread fuel ctx1, search_thread fuel ctx2 with
    | some r1, some r2 => some (int_wrap (int_wrap (0 + r1) + r2))
    | _, _ => none
  else
    main_loop fuel search_f c keyword print_matches c.length 0 0

/-! ## Notions of the specification -/

/-- The raw offsets a matcher yields when it is called repeatedly, each call resuming at
the previous result `+ 1`, until it returns `-1`; one unit of fuel per call. -/
def raw_offsets (search_f : str_search_t) (txt keyword : List Nat) : Nat → Nat → Option (List Int)
  | 0, _ => none
  | fuel + 1, start =>
    let index := search_f txt keyword start
    if index = -1 then some []
    else (raw_offsets search_f txt keyword fuel (index + 1).toNat).map (fun l => index :: l)

/-- A whole-word match at `i`, in the words of the specification: the keyword occurs in
the text at `i`, and `i = 0` or the byte at `i - 1` is not an ASCII letter, and
`i + keyword_length` is the text length or the byte there is not an ASCII letter. -/
def whole_word_at (txt : text) (keyword : List Nat) (i : Nat) : Bool :=
  occurs_at txt.contents keyword i &&
    (i == 0 || !is_letter (cread txt.contents (i - 1))) &&
    (i + strlen keyword == txt.length || !is_letter (cread txt.contents (i + strlen keyword)))

/-- The number of offsets of the text that are whole-word matches. -/
def whole_word_count (txt : text) (keyword : List Nat) : Nat :=
  ((List.range (txt.length + 1)).filter (whole_word_at txt keyword)).length

/-- The matcher `f` (text and keyword fixed) finds the first index below `N` that
satisfies `p`: started at any `start <= M` it returns the least such index `>= start`,
and `-1` when there is none. -/
def finds_first (f : Nat → Int) (p : Nat → Bool) (M N : Nat) : Prop :=
  ∀ start, start ≤ M →
    (f start = -1 ∧ ∀ k, start ≤ k → k < N → p k = false) ∨
    (∃ r : Nat, f start = (r : Int) ∧ start ≤ r ∧ r < N ∧ p r = true ∧
      ∀ k, start ≤ k → k < r → p k = false)

/-- The indices `i` with `start <= i < N` that satisfy `p`, in increasing order. -/
def hits_from (p : Nat → Bool) (N start : Nat) : List Nat :=
  (List.range N).filter (fun i => decide (start ≤ i) && p i)

/-- The two boundary tests of `search_one` at a candidate `index`: neither `continue` is
taken. -/
def boundary_ok (txt : text) (keyword : List Nat) (index : Nat) : Bool :=
  !(decide (0 < index) && is_letter (cread txt.contents (index - 1))) &&
    !(decide (index + strlen keyword < txt.length) &&
      is_letter (cread txt.contents (index + strlen keyword)))

/-! ## Notions for the partition, the windows and the printed context -/

/-- The context `ctx1` built in `main`: `.start = 0, .end = midpoint` with
`midpoint = corpus.length / 2`. -/
def main_ctx1 (search_f : str_search_t) (c : corpus) (keyword : List Nat) : thread_context :=
  ⟨search_f, c, 0, c.length / 2, keyword⟩

/-- The context `ctx2` built in `main`: `.start = midpoint, .end = corpus.length`. -/
def main_ctx2 (search_f : str_search_t) (c : corpus) (keyword : List Nat) : thread_context :=
  ⟨search_f, c, c.length / 2, c.length, keyword⟩

/-- The document indices a worker visits: `ctx->start <= i < ctx->end`. -/
def in_range (ctx : thread_context) (i : Nat) : Prop := ctx.start ≤ i ∧ i < ctx.end_

/-- The scan loop of `simd_str_search` together with a record of its loads from the text:
the result of the loop, and the indices `i` for which `_mm256_loadu_si256(text_p + i)` is
executed, in order. -/
def simd_loop_loads (txt : List Nat) (keywordv mask : m256i) (text_len : Nat) :
    Nat → Nat → Int × List Nat
  | 0, _ => (-1, [])
  | fuel + 1, i =>
    if i ≤ text_len - 32 then
      let textv := mm256_loadu_si256 txt i
      let r1 := mm256_xor_si256 textv keywordv
      let r2 := mm256_and_si256 r1 mask
      if mm256_testz_si256 r2 r2 then ((i : Int), [i])
      else
        let rest := simd_loop_loads txt keywordv mask text_len fuel (i + 1)
        (rest.1, i :: rest.2)
    else (-1, [])

/-- The function `simd_str_search` together with the record of its loads from the text. -/
def simd_str_search_loads (txt keyword : List Nat) (offset : Nat) : Int × List Nat :=
  let text_len := strlen txt
  let keyword_len := strlen keyword
  if text_len < 32 ∨ keyword_len > 32 then (-1, [])
  else
    let keywordv := mm256_loadu_si256 (keyword_padded keyword keyword_len) 0
    let mask := mm256_loadu_si256 (keyword_mask keyword_len) 0
    simd_loop_loads txt keywordv mask text_len (text_len - 32 + 1 - offset) offset

/-- The masked test of the specification at position `i`: each of the 32 text bytes at
`i`, XORed with the byte of the zero-padded keyword lane and ANDed with the byte of the
mask (`0xFF` in the first `keyword_length` positions, `0x00` elsewhere), is zero. -/
def masked_window_zero (txt keyword : List Nat) (i : Nat) : Bool :=
  (List.range 32).all (fun k =>
    ((cread txt (i + k) ^^^ (if k < strlen keyword then cread keyword k else 0)) &&&
      (if k < strlen keyword then 0xFF else 0)) == 0)

/-! ## Lemmas on buffers -/

theorem cread_nil (i : Nat) : cread [] i = 0 := by
  simp [cread]

theorem cread_cons_zero (b : Nat) (bs : List Nat) : cread (b :: bs) 0 = b := by
  simp [cread]

theorem cread_cons_succ (b : Nat) (bs : List Nat) (i : Nat) :
    cread (b :: bs) (i + 1) = cread bs i := by
  simp [cread]

theorem cread_strlen (s : List Nat) : cread s (strlen s) = 0 := by
  induction s with
  | nil => simp [cread]
  | cons b bs ih =>
    by_cases hb : b = 0
    · simp [strlen, hb, cread_cons_zero]
    · simp [strlen, hb, cread_cons_succ, ih]

theorem cread_ne_zero (s : List Nat) : ∀ k, k < strlen s → cread s k ≠ 0 := by
  induction s with
  | nil => intro k hk; simp [strlen] at hk
  | cons b bs ih =>
    intro k hk
    by_cases hb : b = 0
    · simp [strlen, hb] at hk
    · cases k with
      | zero => simpa [cread_cons_zero] using hb
      | succ k =>
        rw [cread_cons_succ]
        apply ih
        simp [strlen, hb] at hk
        exact hk

theorem strlen_le_length (s : List Nat) : strlen s ≤ s.length := by
  induction s with
  | nil => simp [strlen]
  | cons b bs ih =>
    by_cases hb : b = 0
    · simp [strlen, hb]
    · simp [strlen, hb, ih]

theorem strlen_eq_length (s : List Nat) (h : ∀ b ∈ s, b ≠ 0) : strlen s = s.length := by
  induction s with
  | nil => simp [strlen]
  | cons b bs ih =>
    have hb : b ≠ 0 := h b (by simp)
    have := ih (fun x hx => h x (by simp [hx]))
    simp [strlen, hb, this]

theorem cread_drop (s : List Nat) (n i : Nat) : cread (s.drop n) i = cread s (n + i) := by
  simp [cread, List.getD_eq_getElem?_getD, List.getElem?_drop]

theorem strlen_drop (s : List Nat) : ∀ n, n ≤ strlen s → strlen (s.drop n) = strlen s - n := by
  induction s with
  | nil => intro n _; simp [strlen]
  | cons b bs ih =>
    intro n hn
    cases n with
    | zero => simp
    | succ n =>
      by_cases hb : b = 0
      · simp [strlen, hb] at hn
      · simp [strlen, hb] at hn
        simp [strlen, hb, ih n hn]

/-! ## The brute-force matcher -/

theorem occurs_at_iff (s1 s2 : List Nat) (i : Nat) :
    occurs_at s1 s2 i = true ↔
      i + strlen s2 ≤ strlen s1 ∧ ∀ k, k < strlen s2 → cread s1 (i + k) = cread s2 k := by
  simp [occurs_at, List.all_eq_true]

theorem fits_of_match (s1 s2 : List Nat) (i : Nat) (hi : i ≤ strlen s1)
    (hm : ∀ k, k < strlen s2 → cread s1 (i + k) = cread s2 k) :
    i + strlen s2 ≤ strlen s1 := by
  by_contra hlt
  have hk : strlen s1 - i < strlen s2 := by omega
  have h1 := hm _ hk
  have h2 : i + (strlen s1 - i) = strlen s1 := by omega
  rw [h2, cread_strlen] at h1
  exact cread_ne_zero s2 _ hk h1.symm

theorem occurs_at_iff_match (s1 s2 : List Nat) (i : Nat) (hi : i ≤ strlen s1) :
    occurs_at s1 s2 i = true ↔ ∀ k, k < strlen s2 → cread s1 (i + k) = cread s2 k := by
  rw [occurs_at_iff]
  constructor
  · exact fun h => h.2
  · exact fun h => ⟨fits_of_match s1 s2 i hi h, h⟩

theorem occurs_at_lt (s1 s2 : List Nat) (i : Nat) (hk : 0 < strlen s2)
    (h : occurs_at s1 s2 i = true) : i < strlen s1 := by
  rw [occurs_at_iff] at h
  omega

theorem stupid_inner_spec (txt keyword : List Nat) (i : Nat) :
    ∀ fuel j, j ≤ strlen keyword → strlen keyword + 1 ≤ fuel + j →
      (∀ k, k < j → cread txt (i + k) = cread keyword k) →
      (cread keyword (stupid_inner txt keyword i fuel j) = 0 ↔
        ∀ k, k < strlen keyword → cread txt (i + k) = cread keyword k) := by
  intro fuel
  induction fuel with
  | zero => intro j h1 h2 _; omega
  | succ fuel ih =>
    intro j hj hfuel hinv
    unfold stupid_inner
    split
    · rename_i hc
      have hjlt : j < strlen keyword := by
        rcases Nat.lt_or_ge j (strlen keyword) with h | h
        · exact h
        · have : j = strlen keyword := by omega
          exact absurd (this ▸ cread_strlen keyword) hc.2.1
      apply ih (j + 1) hjlt (by omega)
      intro k hk
      rcases Nat.lt_or_ge k j with h | h
      · exact hinv k h
      · have : k = j := by omega
        subst this
        exact hc.2.2
    · rename_i hc
      rcases Nat.lt_or_ge j (strlen keyword) with h | h
      · have hne := cread_ne_zero keyword j h
        constructor
        · intro h0; exact absurd h0 hne
        · intro hall
          have := hall j h
          exact absurd ⟨by rw [this]; exact hne, hne, this⟩ hc
      · have : j = strlen keyword := by omega
        subst this
        constructor
        · intro _; exact hinv
        · intro _; exact cread_strlen keyword

theorem stupid_outer_spec (txt keyword : List Nat) :
    ∀ fuel i, i ≤ strlen txt → strlen txt + 1 ≤ fuel + i →
      (stupid_outer txt keyword fuel i = -1 ∧
        ∀ k, i ≤ k → k < strlen txt →
          ¬ ∀ q, q < strlen keyword → cread txt (k + q) = cread keyword q) ∨
      (∃ r : Nat, stupid_outer txt keyword fuel i = (r : Int) ∧ i ≤ r ∧ r < strlen txt ∧
        (∀ q, q < strlen keyword → cread txt (r + q) = cread keyword q) ∧
        ∀ k, i ≤ k → k < r →
          ¬ ∀ q, q < strlen keyword → cread txt (k + q) = cread keyword q) := by
  intro fuel
  induction fuel with
  | zero => intro i h1 h2; omega
  | succ fuel ih =>
    intro i hi hfuel
    unfold stupid_outer
    have hin := stupid_inner_spec txt keyword i (keyword.length + 1) 0 (Nat.zero_le _)
      (by have := strlen_le_length keyword; omega) (by intro k hk; omega)
    split
    · rename_i hc
      have hilt : i < strlen txt := by
        rcases Nat.lt_or_ge i (strlen txt) with h | h
        · exact h
        · have : i = strlen txt := by omega
          exact absurd (this ▸ cread_strlen txt) hc
      simp only []
      split
      · rename_i hz
        right
        exact ⟨i, rfl, le_refl _, hilt, hin.mp hz, by intro k h1 h2; omega⟩
      · rename_i hz
        have hno := fun h => hz (hin.mpr h)
        rcases ih (i + 1) hilt (by omega) with ⟨h1, h2⟩ | ⟨r, h1, h2, h3, h4, h5⟩
        · left
          refine ⟨h1, ?_⟩
          intro k hk1 hk2
          rcases Nat.eq_or_lt_of_le hk1 with h | h
          · subst h; exact hno
          · exact h2 k h hk2
        · right
          refine ⟨r, h1, by omega, h3, h4, ?_⟩
          intro k hk1 hk2
          rcases Nat.eq_or_lt_of_le hk1 with h | h
          · subst h; exact hno
          · exact h5 k h hk2
    · rename_i hc
      left
      have : i = strlen txt := by
        rcases Nat.lt_or_ge i (strlen txt) with h | h
        · exact absurd (cread_ne_zero txt i h) hc
        · omega
      exact ⟨rfl, by intro k h1 h2; omega⟩

/-! ## The library matcher -/

theorem stupid_finds_first (txt keyword : List Nat) :
    finds_first (stupid_str_search txt keyword) (occurs_at txt keyword) (strlen txt) (strlen txt) := by
  intro start hstart
  have hlen := strlen_le_length txt
  rcases stupid_outer_spec txt keyword (txt.length + 1 - start) start hstart (by omega) with
    ⟨h1, h2⟩ | ⟨r, h1, h2, h3, h4, h5⟩
  · left
    refine ⟨h1, ?_⟩
    intro k hk1 hk2
    have := h2 k hk1 hk2
    rw [← occurs_at_iff_match txt keyword k (Nat.le_of_lt hk2)] at this
    simpa using this
  · right
    refine ⟨r, h1, h2, h3, (occurs_at_iff_match txt keyword r (Nat.le_of_lt h3)).mpr h4, ?_⟩
    intro k hk1 hk2
    have := h5 k hk1 hk2
    rw [← occurs_at_iff_match txt keyword k (by omega)] at this
    simpa using this

theorem occurs_at_drop (txt keyword : List Nat) (offset i : Nat) (h : offset ≤ strlen txt) :
    occurs_at (txt.drop offset) keyword i = occurs_at txt keyword (offset + i) := by
  rw [Bool.eq_iff_iff, occurs_at_iff, occurs_at_iff, strlen_drop txt offset h]
  constructor
  · rintro ⟨h1, h2⟩
    refine ⟨by omega, ?_⟩
    intro k hk
    have := h2 k hk
    rwa [cread_drop, ← Nat.add_assoc] at this
  · rintro ⟨h1, h2⟩
    refine ⟨by omega, ?_⟩
    intro k hk
    rw [cread_drop, ← Nat.add_assoc]
    exact h2 k hk

theorem regular_spec (txt keyword : List Nat) (start : Nat) (hstart : start ≤ strlen txt) :
    (regular_str_search txt keyword start = -1 ∧
      ∀ k, start ≤ k → k ≤ strlen txt → occurs_at txt keyword k = false) ∨
    (∃ r : Nat, regular_str_search txt keyword start = (r : Int) ∧ start ≤ r ∧
      r ≤ strlen txt ∧ occurs_at txt keyword r = true ∧
      ∀ k, start ≤ k → k < r → occurs_at txt keyword k = false) := by
  unfold regular_str_search
  cases hs : strstr (txt.drop start) keyword with
  | none =>
    left
    refine ⟨rfl, ?_⟩
    intro k hk1 hk2
    unfold strstr at hs
    rw [List.find?_range_eq_none, strlen_drop txt start hstart] at hs
    have := hs (k - start) (by omega)
    rw [occurs_at_drop txt keyword start _ hstart] at this
    have e : start + (k - start) = k := by omega
    rw [e] at this
    simpa using this
  | some p =>
    right
    unfold strstr at hs
    rw [List.find?_range_eq_some, strlen_drop txt start hstart] at hs
    obtain ⟨h1, h2, h3⟩ := hs
    rw [occurs_at_drop txt keyword start _ hstart] at h1
    simp only [List.mem_range] at h2
    refine ⟨start + p, rfl, by omega, by omega, h1, ?_⟩
    intro k hk1 hk2
    have := h3 (k - start) (by omega)
    rw [occurs_at_drop txt keyword start _ hstart] at this
    have e : start + (k - start) = k := by omega
    rw [e] at this
    simpa using this

theorem regular_eq_stupid (txt keyword : List Nat) (start : Nat) (hstart : start ≤ strlen txt)
    (hne : 0 < strlen keyword ∨ start < strlen txt) :
    regular_str_search txt keyword start = stupid_str_search txt keyword start := by
  have hend : occurs_at txt keyword (strlen txt) = true → start < strlen txt := by
    intro h
    rcases hne with h0 | h0
    · have := occurs_at_lt txt keyword _ h0 h
      omega
    · exact h0
  have hat : strlen keyword = 0 → ∀ k, k ≤ strlen txt → occurs_at txt keyword k = true := by
    intro h0 k hk
    rw [occurs_at_iff]
    exact ⟨by omega, by intro q hq; omega⟩
  rcases stupid_finds_first txt keyword start hstart with ⟨s1, s2⟩ | ⟨r, s1, s2, s3, s4, s5⟩
  · rcases regular_spec txt keyword start hstart with ⟨r1, _⟩ | ⟨r', r1, r2, r3, r4, _⟩
    · rw [s1, r1]
    · exfalso
      rcases Nat.lt_or_ge r' (strlen txt) with h | h
      · have := s2 r' r2 h
        rw [r4] at this
        exact Bool.noConfusion this
      · have e : r' = strlen txt := by omega
        subst e
        have hlt := hend r4
        have hk0 : strlen keyword = 0 := by
          rw [occurs_at_iff] at r4
          omega
        have := s2 start (le_refl _) hlt
        rw [hat hk0 start hstart] at this
        exact Bool.noConfusion this
  · rcases regular_spec txt keyword start hstart with ⟨_, r2⟩ | ⟨r', r1, r2, r3, r4, r5⟩
    · exfalso
      have := r2 r s2 (Nat.le_of_lt s3)
      rw [s4] at this
      exact Bool.noConfusion this
    · have e : r' = r := by
        rcases Nat.lt_trichotomy r' r with h | h | h
        · have := s5 r' r2 h
          rw [r4] at this
          exact Bool.noConfusion this
        · exact h
        · have := r5 r s2 h
          rw [s4] at this
          exact Bool.noConfusion this
      rw [s1, r1, e]

theorem regular_finds_first (txt keyword : List Nat) (hk : 0 < strlen keyword) :
    finds_first (regular_str_search txt keyword) (occurs_at txt keyword) (strlen txt) (strlen txt) := by
  intro start hstart
  rw [regular_eq_stupid txt keyword start hstart (Or.inl hk)]
  exact stupid_finds_first txt keyword start hstart

/-! ## The vectorized matcher -/

theorem cread_lt (s : List Nat) (h : ∀ b ∈ s, b < 256) (i : Nat) : cread s i < 256 := by
  unfold cread
  rw [List.getD_eq_getElem?_getD]
  cases hi : s[i]? with
  | none => simp
  | some b =>
    simp only [Option.getD_some]
    exact h b (List.getElem?_mem hi)

theorem byte_test (x y : Nat) (hx : x < 256) (hy : y < 256) :
    ((x ^^^ y) &&& 255) = 0 ↔ x = y := by
  have h1 : x ^^^ y < 2 ^ 8 := Nat.xor_lt_two_pow (by simpa using hx) (by simpa using hy)
  have h2 : (x ^^^ y) &&& 255 = (x ^^^ y) % 2 ^ 8 := Nat.and_pow_two_sub_one_eq_mod _ 8
  rw [h2, Nat.mod_eq_of_lt h1, Nat.xor_eq_zero]

theorem loadu_map_range (f : Nat → Nat) :
    mm256_loadu_si256 ((List.range 32).map f) 0 = (List.range 32).map f := by
  unfold mm256_loadu_si256
  apply List.map_congr_left
  intro k hk
  rw [List.mem_range] at hk
  simp [cread, List.getD_eq_getElem?_getD, List.getElem?_map, List.getElem?_range hk]

theorem simd_test_iff (txt keyword : List Nat) (i : Nat) (hm : strlen keyword ≤ 32)
    (ht : ∀ b ∈ txt, b < 256) (hk : ∀ b ∈ keyword, b < 256) :
    mm256_testz_si256
      (mm256_and_si256 (mm256_xor_si256 (mm256_loadu_si256 txt i)
        (mm256_loadu_si256 (keyword_padded keyword (strlen keyword)) 0))
        (mm256_loadu_si256 (keyword_mask (strlen keyword)) 0))
      (mm256_and_si256 (mm256_xor_si256 (mm256_loadu_si256 txt i)
        (mm256_loadu_si256 (keyword_padded keyword (strlen keyword)) 0))
        (mm256_loadu_si256 (keyword_mask (strlen keyword)) 0)) = true ↔
    ∀ k, k < strlen keyword → cread txt (i + k) = cread keyword k := by
  unfold keyword_padded keyword_mask
  rw [loadu_map_range, loadu_map_range]
  unfold mm256_testz_si256 mm256_and_si256 mm256_xor_si256 mm256_loadu_si256
  simp only [List.zipWith_map_left, List.zipWith_map_right, List.zipWith_same, List.map_map,
    List.all_map, List.all_eq_true, List.mem_range, Function.comp, Nat.and_self, beq_iff_eq]
  constructor
  · intro h k hk'
    have := h k (by omega)
    simp only [hk', if_true] at this
    exact (byte_test _ _ (cread_lt txt ht _) (cread_lt keyword hk _)).mp this
  · intro h k _
    by_cases hk' : k < strlen keyword
    · simp only [hk', if_true]
      exact (byte_test _ _ (cread_lt txt ht _) (cread_lt keyword hk _)).mpr (h k hk')
    · simp [hk']

theorem simd_loop_spec (txt : List Nat) (keywordv mask : m256i) (text_len : Nat) :
    ∀ fuel i, text_len - 32 + 1 ≤ fuel + i →
      (simd_loop txt keywordv mask text_len fuel i = -1 ∧
        ∀ k, i ≤ k → k ≤ text_len - 32 →
          mm256_testz_si256
            (mm256_and_si256 (mm256_xor_si256 (mm256_loadu_si256 txt k) keywordv) mask)
            (mm256_and_si256 (mm256_xor_si256 (mm256_loadu_si256 txt k) keywordv) mask)
            = false) ∨
      (∃ r : Nat, simd_loop txt keywordv mask text_len fuel i = (r : Int) ∧ i ≤ r ∧
        r ≤ text_len - 32 ∧
        mm256_testz_si256
          (mm256_and_si256 (mm256_xor_si256 (mm256_loadu_si256 txt r) keywordv) mask)
          (mm256_and_si256 (mm256_xor_si256 (mm256_loadu_si256 txt r) keywordv) mask)
          = true ∧
        ∀ k, i ≤ k → k < r →
          mm256_testz_si256
            (mm256_and_si256 (mm256_xor_si256 (mm256_loadu_si256 txt k) keywordv) mask)
            (mm256_and_si256 (mm256_xor_si256 (mm256_loadu_si256 txt k) keywordv) mask)
            = false) := by
  intro fuel
  induction fuel with
  | zero =>
    intro i hi
    left
    exact ⟨rfl, by intro k h1 h2; omega⟩
  | succ fuel ih =>
    intro i hi
    unfold simd_loop
    split
    · rename_i hc
      simp only []
      split
      · rename_i ht
        right
        exact ⟨i, rfl, le_refl _, hc, ht, by intro k h1 h2; omega⟩
      · rename_i ht
        have ht' := Bool.eq_false_iff.mpr ht
        rcases ih (i + 1) (by omega) with ⟨h1, h2⟩ | ⟨r, h1, h2, h3, h4, h5⟩
        · left
          refine ⟨h1, ?_⟩
          intro k hk1 hk2
          rcases Nat.eq_or_lt_of_le hk1 with h | h
          · subst h; exact ht'
          · exact h2 k h hk2
        · right
          refine ⟨r, h1, by omega, h3, h4, ?_⟩
          intro k hk1 hk2
          rcases Nat.eq_or_lt_of_le hk1 with h | h
          · subst h; exact ht'
          · exact h5 k h hk2
    · rename_i hc
      left
      exact ⟨rfl, by intro k h1 h2; omega⟩

theorem simd_finds_first (txt keyword : List Nat) (hn : 32 ≤ strlen txt)
    (hm : strlen keyword ≤ 32) (ht : ∀ b ∈ txt, b < 256) (hk : ∀ b ∈ keyword, b < 256) :
    finds_first (simd_str_search txt keyword) (occurs_at txt keyword) (strlen txt)
      (strlen txt - 31) := by
  intro start _
  have hguard : ¬ (strlen txt < 32 ∨ strlen keyword > 32) := by omega
  have hocc : ∀ k, k ≤ strlen txt - 32 →
      (mm256_testz_si256
        (mm256_and_si256 (mm256_xor_si256 (mm256_loadu_si256 txt k)
          (mm256_loadu_si256 (keyword_padded keyword (strlen keyword)) 0))
          (mm256_loadu_si256 (keyword_mask (strlen keyword)) 0))
        (mm256_and_si256 (mm256_xor_si256 (mm256_loadu_si256 txt k)
          (mm256_loadu_si256 (keyword_padded keyword (strlen keyword)) 0))
          (mm256_loadu_si256 (keyword_mask (strlen keyword)) 0))) = occurs_at txt keyword k := by
    intro k hk'
    rw [Bool.eq_iff_iff, simd_test_iff txt keyword k hm ht hk,
      occurs_at_iff_match txt keyword k (by omega)]
  unfold simd_str_search
  simp only [hguard, if_false]
  rcases simd_loop_spec txt (mm256_loadu_si256 (keyword_padded keyword (strlen keyword)) 0)
      (mm256_loadu_si256 (keyword_mask (strlen keyword)) 0) (strlen txt)
      (strlen txt - 32 + 1 - start) start (by omega) with ⟨h1, h2⟩ | ⟨r, h1, h2, h3, h4, h5⟩
  · left
    refine ⟨h1, ?_⟩
    intro k hk1 hk2
    rw [← hocc k (by omega)]
    exact h2 k hk1 (by omega)
  · right
    refine ⟨r, h1, h2, by omega, ?_, ?_⟩
    · rw [← hocc r h3]; exact h4
    · intro k hk1 hk2
      rw [← hocc k (by omega)]
      exact h5 k hk1 hk2

/-! ## Lists of hits -/

theorem hits_from_succ (p : Nat → Bool) (N start : Nat) :
    hits_from p (N + 1) start =
      hits_from p N start ++ (if start ≤ N ∧ p N = true then [N] else []) := by
  unfold hits_from
  rw [List.range_succ, List.filter_append]
  congr 1
  by_cases h : start ≤ N ∧ p N = true
  · simp [h, List.filter]
  · rw [if_neg h]
    rw [List.filter_eq_nil_iff]
    intro a ha
    simp only [List.mem_singleton] at ha
    subst ha
    simpa using h

theorem hits_from_skip (p : Nat → Bool) (N start s : Nat) (hs : start ≤ s)
    (h : ∀ k, start ≤ k → k < s → p k = false) : hits_from p N start = hits_from p N s := by
  unfold hits_from
  apply List.filter_congr
  intro x _
  by_cases h1 : s ≤ x
  · have : start ≤ x := by omega
    simp [h1, this]
  · by_cases h2 : start ≤ x
    · simp [h1, h2, h x h2 (by omega)]
    · simp [h1, h2]

theorem hits_from_nil (p : Nat → Bool) (N start : Nat)
    (h : ∀ k, start ≤ k → k < N → p k = false) : hits_from p N start = [] := by
  unfold hits_from
  rw [List.filter_eq_nil_iff]
  intro a ha
  rw [List.mem_range] at ha
  by_cases h2 : start ≤ a
  · simp [h a h2 ha]
  · simp [h2]

theorem hits_from_cons (p : Nat → Bool) (start r : Nat) (hr : start ≤ r) (hp : p r = true)
    (h : ∀ k, start ≤ k → k < r → p k = false) :
    ∀ N, r < N → hits_from p N start = r :: hits_from p N (r + 1) := by
  intro N
  induction N with
  | zero => intro h0; omega
  | succ N ih =>
    intro hN
    rw [hits_from_succ, hits_from_succ]
    rcases Nat.eq_or_lt_of_le (Nat.le_of_lt_succ hN) with e | e
    · subst e
      rw [hits_from_nil p r start h, hits_from_nil p r (r + 1) (by intro k h1 h2; omega)]
      simp [hr, hp]
    · rw [ih e]
      have h1 : start ≤ N := by omega
      have h2 : r + 1 ≤ N := by omega
      simp [h1, h2]

theorem mem_hits_from (p : Nat → Bool) (N start i : Nat) :
    i ∈ hits_from p N start ↔ i < N ∧ start ≤ i ∧ p i = true := by
  simp [hits_from, List.mem_filter]

theorem hits_from_filter_lt (p : Nat → Bool) (start a : Nat) :
    ∀ b, a ≤ b →
      (hits_from p b start).filter (fun i => decide (i < a)) = hits_from p a start := by
  intro b hb
  induction b, hb using Nat.le_induction with
  | base =>
    rw [List.filter_eq_self]
    intro x hx
    rw [mem_hits_from] at hx
    simpa using hx.1
  | succ b hb ih =>
    rw [hits_from_succ, List.filter_append, ih]
    have : List.filter (fun i => decide (i < a)) (if start ≤ b ∧ p b = true then [b] else []) = [] := by
      rw [List.filter_eq_nil_iff]
      intro x hx
      split at hx
      · simp only [List.mem_singleton] at hx
        subst hx
        simpa using hb
      · simp at hx
    rw [this, List.append_nil]

/-! ## Repeated search -/

theorem raw_offsets_spec (search_f : str_search_t) (txt keyword : List Nat) (p : Nat → Bool)
    (M N : Nat) (hNM : N ≤ M) (hf : finds_first (search_f txt keyword) p M N) :
    ∀ fuel start, start ≤ M → M + 1 ≤ fuel + start →
      raw_offsets search_f txt keyword fuel start =
        some ((hits_from p N start).map Int.ofNat) := by
  intro fuel
  induction fuel with
  | zero => intro start h1 h2; omega
  | succ fuel ih =>
    intro start hstart hfuel
    unfold raw_offsets
    rcases hf start hstart with ⟨h1, h2⟩ | ⟨r, h1, h2, h3, h4, h5⟩
    · simp only [h1, if_true]
      rw [hits_from_nil p N start h2]
      rfl
    · have hne : ((r : Int) = -1) = False := by
        apply propext
        constructor
        · intro h; omega
        · exact False.elim
      have hnext : ((r : Int) + 1).toNat = r + 1 := by omega
      simp only [h1, hne, if_false, hnext]
      rw [ih (r + 1) (by omega) (by omega), hits_from_cons p start r h2 h4 h5 N h3]
      rfl

theorem int_wrap_idem (x : Int) : int_wrap (int_wrap x) = int_wrap x := by
  unfold int_wrap
  omega

theorem int_wrap_add_left (x y : Int) : int_wrap (int_wrap x + y) = int_wrap (x + y) := by
  unfold int_wrap
  omega

theorem int_wrap_add_right (x y : Int) : int_wrap (x + int_wrap y) = int_wrap (x + y) := by
  unfold int_wrap
  omega

theorem int_wrap_of_lt (n : Nat) (h : n < 2147483648) : int_wrap (n : Int) = (n : Int) := by
  unfold int_wrap
  omega

theorem loop_step (txt : text) (X : Option run) (S st : run) (a b : Int) (l l2 : List Int)
    (N : Nat)
    (h : int_wrap S.count = S.count →
      ∃ st', X = some st' ∧ st'.count = int_wrap (S.count + a) ∧ st'.hits = S.hits ++ l ∧
        (N ≤ txt.length → (∀ x ∈ S.reads, 0 ≤ x ∧ x < (txt.length : Int)) →
          ∀ x ∈ st'.reads, 0 ≤ x ∧ x < (txt.length : Int)))
    (hv : int_wrap S.count = S.count)
    (hc : int_wrap (S.count + a) = int_wrap (st.count + b))
    (hh : S.hits ++ l = st.hits ++ l2)
    (hr : N ≤ txt.length → (∀ x ∈ st.reads, 0 ≤ x ∧ x < (txt.length : Int)) →
      ∀ x ∈ S.reads, 0 ≤ x ∧ x < (txt.length : Int)) :
    ∃ st', X = some st' ∧ st'.count = int_wrap (st.count + b) ∧ st'.hits = st.hits ++ l2 ∧
      (N ≤ txt.length → (∀ x ∈ st.reads, 0 ≤ x ∧ x < (txt.length : Int)) →
        ∀ x ∈ st'.reads, 0 ≤ x ∧ x < (txt.length : Int)) := by
  obtain ⟨st', e1, e2, e3, e4⟩ := h hv
  exact ⟨st', e1, by rw [e2, hc], by rw [e3, hh], fun hN hst => e4 hN (hr hN hst)⟩

theorem search_one_loop_spec (search_f : str_search_t) (txt : text) (keyword : List Nat)
    (print_matches : Bool) (p : Nat → Bool) (M N : Nat) (hNM : N ≤ M)
    (hf : finds_first (search_f txt.contents keyword) p M N) :
    ∀ fuel offset st, offset ≤ M → M + 1 ≤ fuel + offset → int_wrap st.count = st.count →
      ∃ st', search_one_loop search_f txt keyword print_matches fuel offset st = some st' ∧
        st'.count = int_wrap (st.count +
          ((hits_from (fun i => p i && boundary_ok txt keyword i) N offset).length : Int)) ∧
        st'.hits = st.hits ++
          (hits_from (fun i => p i && boundary_ok txt keyword i) N offset).map Int.ofNat ∧
        (N ≤ txt.length → (∀ x ∈ st.reads, 0 ≤ x ∧ x < (txt.length : Int)) →
          ∀ x ∈ st'.reads, 0 ≤ x ∧ x < (txt.length : Int)) := by
  intro fuel
  induction fuel with
  | zero => intro offset st h1 h2; omega
  | succ fuel ih =>
    intro offset st hoff hfuel hst
    unfold search_one_loop
    rcases hf offset hoff with ⟨h1, h2⟩ | ⟨r, h1, h2, h3, h4, h5⟩
    · simp only [h1, if_true]
      refine ⟨_, rfl, ?_, ?_, ?_⟩
      · rw [hits_from_nil _ N offset (by intro k a b; simp [h2 k a b])]
        simp only [List.length_nil, Nat.cast_zero, Int.add_zero]
        exact hst.symm
      · rw [hits_from_nil _ N offset (by intro k a b; simp [h2 k a b])]
        simp
      · intro _ h; exact h
    · have hne : ((r : Int) = -1) = False := by
        apply propext
        constructor
        · intro h; omega
        · exact False.elim
      have hnext : ((r : Int) + 1).toNat = r + 1 := by omega
      have hprev : ((r : Int) - 1).toNat = r - 1 := by omega
      have hafter : ((r : Int) + (strlen keyword : Int)).toNat = r + strlen keyword := by omega
      have hpos : ((r : Int) > 0) = (0 < r) := by
        apply propext; constructor <;> intro h <;> omega
      have hlt : ((r : Int) + (strlen keyword : Int) < (txt.length : Int)) =
          (r + strlen keyword < txt.length) := by
        apply propext; constructor <;> intro h <;> omega
      simp only [h1, hne, if_false, hnext, hprev, hafter, hpos, hlt]
      have hskip : ∀ k, offset ≤ k → k < r →
          (fun i => p i && boundary_ok txt keyword i) k = false := by
        intro k a b; simp [h5 k a b]
      have hrej : boundary_ok txt keyword r = false →
          hits_from (fun i => p i && boundary_ok txt keyword i) N offset =
            hits_from (fun i => p i && boundary_ok txt keyword i) N (r + 1) := by
        intro hbad
        apply hits_from_skip _ N offset (r + 1) (by omega)
        intro k a b
        rcases Nat.eq_or_lt_of_le (Nat.le_of_lt_succ b) with e | e
        · subst e; simp [hbad]
        · exact hskip k a e
      have hacc : boundary_ok txt keyword r = true →
          hits_from (fun i => p i && boundary_ok txt keyword i) N offset =
            r :: hits_from (fun i => p i && boundary_ok txt keyword i) N (r + 1) := by
        intro hgood
        exact hits_from_cons _ offset r h2 (by simp [h4, hgood]) hskip N h3
      have hrd1 : N ≤ txt.length → 0 < r → 0 ≤ (r : Int) - 1 ∧ (r : Int) - 1 < (txt.length : Int) := by
        intro a b; omega
      have hrd2 : r + strlen keyword < txt.length →
          0 ≤ (r : Int) + (strlen keyword : Int) ∧
            (r : Int) + (strlen keyword : Int) < (txt.length : Int) := by
        intro a; omega
      by_cases c1 : 0 < r ∧ is_letter (cread txt.contents (r - 1)) = true
      · -- the first test takes `continue`
        rw [if_pos c1]
        have hbad : boundary_ok txt keyword r = false := by
          simp [boundary_ok, c1.1, c1.2]
        apply loop_step txt _ _ st _ _ _ _ N (ih (r + 1) _ (by omega) (by omega))
        · simp only [c1.1, if_true]; exact hst
        · rw [hrej hbad]; simp [c1.1]
        · rw [hrej hbad]; simp [c1.1]
        · intro hN hr x hx
          simp only [c1.1, if_true, List.mem_append, List.mem_singleton] at hx
          rcases hx with hx | hx
          · exact hr x hx
          · subst hx; exact hrd1 hN c1.1
      · rw [if_neg c1]
        have g1 : (decide (0 < r) && is_letter (cread txt.contents (r - 1))) = false := by
          rw [Bool.eq_false_iff]
          intro h
          rw [Bool.and_eq_true, decide_eq_true_eq] at h
          exact c1 h
        by_cases c2 : r + strlen keyword < txt.length ∧
            is_letter (cread txt.contents (r + strlen keyword)) = true
        · -- the second test takes `continue`
          rw [if_pos c2]
          have hbad : boundary_ok txt keyword r = false := by
            simp [boundary_ok, c2.1, c2.2]
          apply loop_step txt _ _ st _ _ _ _ N (ih (r + 1) _ (by omega) (by omega))
          · by_cases h0 : 0 < r <;> simp only [c2.1, h0, if_true, if_false] <;> exact hst
          · rw [hrej hbad]; by_cases h0 : 0 < r <;> simp [c2.1, h0]
          · rw [hrej hbad]; by_cases h0 : 0 < r <;> simp [c2.1, h0]
          · intro hN hr x hx
            by_cases h0 : 0 < r
            · simp only [c2.1, h0, if_true, List.mem_append, List.mem_singleton] at hx
              rcases hx with (hx | hx) | hx
              · exact hr x hx
              · subst hx; exact hrd1 hN h0
              · subst hx; exact hrd2 c2.1
            · simp only [c2.1, h0, if_true, if_false, List.mem_append, List.mem_singleton] at hx
              rcases hx with hx | hx
              · exact hr x hx
              · subst hx; exact hrd2 c2.1
        · -- the candidate is counted
          rw [if_neg c2]
          have g2 : (decide (r + strlen keyword < txt.length) &&
              is_letter (cread txt.contents (r + strlen keyword))) = false := by
            rw [Bool.eq_false_iff]
            intro h
            rw [Bool.and_eq_true, decide_eq_true_eq] at h
            exact c2 h
          have hgood : boundary_ok txt keyword r = true := by
            unfold boundary_ok
            rw [g1, g2]
            rfl
          apply loop_step txt _ _ st _ _ _ _ N (ih (r + 1) _ (by omega) (by omega))
          · exact int_wrap_idem _
          · rw [hacc hgood]
            have hcnt : ∀ (k : Nat), int_wrap (int_wrap (st.count + 1) + (k : Int)) =
                int_wrap (st.count + ((k + 1 : Nat) : Int)) := by
              intro k
              rw [int_wrap_add_left]
              congr 1
              omega
            by_cases h0 : 0 < r <;> by_cases h1 : r + strlen keyword < txt.length <;>
              cases print_matches <;>
              simp only [h0, h1, if_true, if_false, Bool.false_eq_true, List.length_cons] <;>
              exact hcnt _
          · rw [hacc hgood]
            by_cases h0 : 0 < r <;> by_cases h1 : r + strlen keyword < txt.length <;>
              cases print_matches <;> simp [h0, h1]
          · intro hN hr x hx
            by_cases h0 : 0 < r <;> by_cases h1 : r + strlen keyword < txt.length <;>
              cases print_matches <;>
              simp only [h0, h1, if_true, if_false, List.mem_append, List.mem_singleton,
                Bool.false_eq_true] at hx
            all_goals first
              | exact hr x hx
              | (rcases hx with hx | hx
                 · exact hr x hx
                 · first
                   | (subst hx; exact hrd1 hN h0)
                   | (subst hx; exact hrd2 h1))
              | (rcases hx with (hx | hx) | hx
                 · exact hr x hx
                 · subst hx; exact hrd1 hN h0
                 · subst hx; exact hrd2 h1)

/-! ## Fuel and the driver loops -/

theorem search_one_loop_mono (search_f : str_search_t) (txt : text) (keyword : List Nat)
    (print_matches : Bool) (extra : Nat) :
    ∀ fuel offset st r,
      search_one_loop search_f txt keyword print_matches fuel offset st = some r →
      search_one_loop search_f txt keyword print_matches (fuel + extra) offset st = some r := by
  intro fuel
  induction fuel with
  | zero => intro offset st r h; simp [search_one_loop] at h
  | succ fuel ih =>
    intro offset st r h
    rw [Nat.add_right_comm]
    unfold search_one_loop at h ⊢
    simp only [] at h ⊢
    split
    · rename_i c0; rw [if_pos c0] at h; exact h
    · rename_i c0
      rw [if_neg c0] at h
      split
      · rename_i c1; rw [if_pos c1] at h; exact ih _ _ _ h
      · rename_i c1
        rw [if_neg c1] at h
        split
        · rename_i c2; rw [if_pos c2] at h; exact ih _ _ _ h
        · rename_i c2; rw [if_neg c2] at h; exact ih _ _ _ h

theorem search_one_run_mono {α : Type} (g : run → α) (search_f : str_search_t) (txt : text)
    (keyword : List Nat) (print_matches : Bool) (fuel extra : Nat) (v : α)
    (h : (search_one_run fuel search_f txt keyword print_matches).map g = some v) :
    (search_one_run (fuel + extra) search_f txt keyword print_matches).map g = some v := by
  unfold search_one_run at h ⊢
  rw [Option.map_eq_some'] at h
  obtain ⟨r, h1, h2⟩ := h
  rw [search_one_loop_mono search_f txt keyword print_matches extra fuel 0 _ r h1]
  simp [h2]

theorem search_one_mono (search_f : str_search_t) (txt : text) (keyword : List Nat)
    (print_matches : Bool) (fuel extra : Nat) (n : Int)
    (h : search_one fuel search_f txt keyword print_matches = some n) :
    search_one (fuel + extra) search_f txt keyword print_matches = some n :=
  search_one_run_mono (fun st => st.count) search_f txt keyword print_matches fuel extra n h

theorem main_loop_mono (search_f : str_search_t) (c : corpus) (keyword : List Nat)
    (print_matches : Bool) (fuel extra : Nat) :
    ∀ n i count r, main_loop fuel search_f c keyword print_matches n i count = some r →
      main_loop (fuel + extra) search_f c keyword print_matches n i count = some r := by
  intro n
  induction n with
  | zero => intro i count r h; simpa [main_loop] using h
  | succ n ih =>
    intro i count r h
    unfold main_loop at h ⊢
    cases ht : c.texts[i]? with
    | none => rw [ht] at h; simp at h
    | some t =>
      rw [ht] at h
      simp only [] at h ⊢
      cases hs : search_one fuel search_f t keyword print_matches with
      | none => rw [hs] at h; simp at h
      | some k =>
        rw [hs] at h
        simp only [] at h
        rw [search_one_mono search_f t keyword print_matches fuel extra k hs]
        exact ih _ _ _ h

theorem search_thread_loop_eq (fuel : Nat) (ctx : thread_context) :
    ∀ n i count, search_thread_loop fuel ctx n i count =
      main_loop fuel ctx.search_f ctx.corpus ctx.keyword false n i count := by
  intro n
  induction n with
  | zero => intro i count; rfl
  | succ n ih =>
    intro i count
    unfold search_thread_loop main_loop
    cases ctx.corpus.texts[i]? with
    | none => rfl
    | some t =>
      simp only []
      cases search_one fuel ctx.search_f t ctx.keyword false with
      | none => rfl
      | some k => exact ih _ _

theorem main_loop_acc (search_f : str_search_t) (c : corpus) (keyword : List Nat)
    (print_matches : Bool) (fuel : Nat) :
    ∀ n i count, int_wrap count = count →
      main_loop fuel search_f c keyword print_matches n i count =
        (main_loop fuel search_f c keyword print_matches n i 0).map
          (fun r => int_wrap (count + r)) := by
  intro n
  induction n with
  | zero =>
    intro i count hv
    simp only [main_loop, Option.map_some', Int.add_zero]
    rw [hv]
  | succ n ih =>
    intro i count _
    unfold main_loop
    cases c.texts[i]? with
    | none => rfl
    | some t =>
      simp only []
      cases search_one fuel search_f t keyword print_matches with
      | none => rfl
      | some k =>
        simp only []
        rw [ih (i + 1) (int_wrap (count + k)) (int_wrap_idem _),
          ih (i + 1) (int_wrap (0 + k)) (int_wrap_idem _)]
        cases main_loop fuel search_f c keyword print_matches n (i + 1) 0 with
        | none => rfl
        | some r =>
          simp only [Option.map_some']
          congr 1
          unfold int_wrap
          omega

theorem main_loop_valid (search_f : str_search_t) (c : corpus) (keyword : List Nat)
    (print_matches : Bool) (fuel : Nat) :
    ∀ n i count r, int_wrap count = count →
      main_loop fuel search_f c keyword print_matches n i count = some r →
      int_wrap r = r := by
  intro n
  induction n with
  | zero =>
    intro i count r hv h
    simp only [main_loop, Option.some.injEq] at h
    rw [← h]
    exact hv
  | succ n ih =>
    intro i count r _ h
    unfold main_loop at h
    cases ht : c.texts[i]? with
    | none => rw [ht] at h; simp at h
    | some t =>
      rw [ht] at h
      simp only [] at h
      cases hs : search_one fuel search_f t keyword print_matches with
      | none => rw [hs] at h; simp at h
      | some k =>
        rw [hs] at h
        simp only [] at h
        exact ih _ _ _ (int_wrap_idem _) h

theorem main_loop_add (search_f : str_search_t) (c : corpus) (keyword : List Nat)
    (print_matches : Bool) (fuel b : Nat) :
    ∀ a i count, main_loop fuel search_f c keyword print_matches (a + b) i count =
      (main_loop fuel search_f c keyword print_matches a i count).bind
        (fun r => main_loop fuel search_f c keyword print_matches b (i + a) r) := by
  intro a
  induction a with
  | zero => intro i count; simp [main_loop]
  | succ a ih =>
    intro i count
    rw [Nat.add_right_comm]
    simp only [main_loop]
    cases c.texts[i]? with
    | none => rfl
    | some t =>
      simp only []
      cases search_one fuel search_f t keyword print_matches with
      | none => rfl
      | some k =>
        simp only []
        rw [ih (i + 1) (int_wrap (count + k))]
        have : i + 1 + a = i + (a + 1) := by omega
        rw [this]

theorem main_loop_some (search_f : str_search_t) (c : corpus) (keyword : List Nat)
    (print_matches : Bool) (fuel : Nat)
    (h : ∀ t ∈ c.texts, (search_one fuel search_f t keyword print_matches).isSome = true) :
    ∀ n i count, i + n ≤ c.texts.length →
      (main_loop fuel search_f c keyword print_matches n i count).isSome = true := by
  intro n
  induction n with
  | zero => intro i count _; rfl
  | succ n ih =>
    intro i count hi
    unfold main_loop
    have hlt : i < c.texts.length := by omega
    rw [List.getElem?_eq_getElem hlt]
    simp only []
    obtain ⟨k, hk⟩ := Option.isSome_iff_exists.mp (h c.texts[i] (List.getElem_mem hlt))
    rw [hk]
    exact ih (i + 1) (int_wrap (count + k)) (by omega)

/-! ## The boundary tests -/

theorem boundary_ok_of (txt : text) (keyword : List Nat) (i : Nat)
    (h1 : i = 0 ∨ is_letter (cread txt.contents (i - 1)) = false)
    (h2 : txt.length ≤ i + strlen keyword ∨
      is_letter (cread txt.contents (i + strlen keyword)) = false) :
    boundary_ok txt keyword i = true := by
  unfold boundary_ok
  have g1 : (decide (0 < i) && is_letter (cread txt.contents (i - 1))) = false := by
    rcases h1 with h | h
    · simp [h]
    · simp [h]
  have g2 : (decide (i + strlen keyword < txt.length) &&
      is_letter (cread txt.contents (i + strlen keyword))) = false := by
    rcases h2 with h | h
    · have : ¬ (i + strlen keyword < txt.length) := by omega
      simp [this]
    · simp [h]
  rw [g1, g2]
  rfl

/-! ## Claims -/

theorem whole_word_at_eq (txt : text) (keyword : List Nat) (i : Nat)
    (hlen : txt.length = strlen txt.contents) :
    whole_word_at txt keyword i =
      (occurs_at txt.contents keyword i && boundary_ok txt keyword i) := by
  unfold whole_word_at boundary_ok
  cases hocc : occurs_at txt.contents keyword i with
  | false => simp
  | true =>
    have hfit := ((occurs_at_iff txt.contents keyword i).mp hocc).1
    rw [← hlen] at hfit
    have e1 : (i == 0) = !decide (0 < i) := by
      rw [Bool.eq_iff_iff]; simp
    have e2 : (i + strlen keyword == txt.length) = !decide (i + strlen keyword < txt.length) := by
      rw [Bool.eq_iff_iff]; simp; omega
    rw [e1, e2]
    cases decide (0 < i) <;> cases decide (i + strlen keyword < txt.length) <;>
      cases is_letter (cread txt.contents (i - 1)) <;>
      cases is_letter (cread txt.contents (i + strlen keyword)) <;> rfl

theorem whole_word_count_eq (txt : text) (keyword : List Nat)
    (hlen : txt.length = strlen txt.contents) (hk : 0 < strlen keyword) :
    whole_word_count txt keyword =
      (hits_from (fun i => occurs_at txt.contents keyword i && boundary_ok txt keyword i)
        (strlen txt.contents) 0).length := by
  unfold whole_word_count
  have hlast : whole_word_at txt keyword txt.length = false := by
    unfold whole_word_at
    have : occurs_at txt.contents keyword txt.length = false := by
      rw [Bool.eq_false_iff]
      intro h
      have := occurs_at_lt txt.contents keyword _ hk h
      omega
    simp [this]
  rw [List.range_succ, List.filter_append]
  have : List.filter (whole_word_at txt keyword) [txt.length] = [] := by
    simp [List.filter, hlast]
  rw [this, List.append_nil, ← hlen]
  unfold hits_from
  congr 1
  apply List.filter_congr
  intro x _
  rw [whole_word_at_eq txt keyword x hlen]
  simp

theorem search_one_stupid_wrapped (txt : text) (keyword : List Nat)
    (print_matches : Bool) (fuel : Nat)
    (hnul : ∀ b ∈ txt.contents, b ≠ 0) (hlen : txt.length = txt.contents.length)
    (hk : 0 < strlen keyword) (hfuel : txt.length + 1 ≤ fuel) :
    search_one fuel stupid_str_search txt keyword print_matches =
      some (int_wrap (whole_word_count txt keyword : Int)) := by
  have hs : txt.length = strlen txt.contents := by
    rw [hlen, strlen_eq_length txt.contents hnul]
  obtain ⟨st', e1, e2, _, _⟩ := search_one_loop_spec stupid_str_search txt keyword
    print_matches (occurs_at txt.contents keyword) (strlen txt.contents) (strlen txt.contents)
    (le_refl _) (stupid_finds_first txt.contents keyword) fuel 0 ⟨0, [], [], [], []⟩
    (Nat.zero_le _) (by omega) (by decide)
  unfold search_one search_one_run
  rw [e1, Option.map_some', e2, whole_word_count_eq txt keyword hs hk]
  simp only [Int.zero_add]

theorem spaces_ne_zero (n : Nat) : ∀ b ∈ List.replicate n 32, b ≠ 0 := by
  intro b hb
  rw [List.eq_of_mem_replicate hb]
  decide

theorem spaces_lt (n : Nat) : ∀ b ∈ List.replicate n 32, b < 256 := by
  intro b hb
  rw [List.eq_of_mem_replicate hb]
  decide

theorem spaces_strlen (n : Nat) : strlen (List.replicate n 32) = n := by
  rw [strlen_eq_length _ (spaces_ne_zero n), List.length_replicate]

theorem spaces_cread (n i : Nat) (h : i < n) : cread (List.replicate n 32) i = 32 := by
  unfold cread
  rw [List.getD_eq_getElem?_getD, List.getElem?_replicate]
  simp [h]

theorem spaces_not_letter (n i : Nat) : is_letter (cread (List.replicate n 32) i) = false := by
  rcases Nat.lt_or_ge i n with h | h
  · rw [spaces_cread n i h]; decide
  · have : cread (List.replicate n 32) i = 0 := by
      unfold cread
      rw [List.getD_eq_getElem?_getD, List.getElem?_replicate]
      simp [Nat.not_lt.mpr h]
    rw [this]; decide

theorem spaces_hits (nm : String) (n L N : Nat) (hN : N ≤ n) :
    (hits_from (fun i => occurs_at (List.replicate n 32) [32] i &&
      boundary_ok ⟨nm, List.replicate n 32, L⟩ [32] i) N 0).length = N := by
  have hone : strlen [32] = 1 := by decide
  have hall : hits_from (fun i => occurs_at (List.replicate n 32) [32] i &&
      boundary_ok ⟨nm, List.replicate n 32, L⟩ [32] i) N 0 = List.range N := by
    unfold hits_from
    rw [List.filter_eq_self]
    intro i hi
    rw [List.mem_range] at hi
    have hocc : occurs_at (List.replicate n 32) [32] i = true := by
      rw [occurs_at_iff, hone, spaces_strlen]
      refine ⟨by omega, ?_⟩
      intro k hk
      have : k = 0 := by omega
      subst this
      rw [Nat.add_zero, spaces_cread n i (by omega)]
      rfl
    have hb : boundary_ok ⟨nm, List.replicate n 32, L⟩ [32] i = true :=
      boundary_ok_of _ _ _ (Or.inr (spaces_not_letter n _)) (Or.inr (spaces_not_letter n _))
    simp [hocc, hb]
  rw [hall, List.length_range]

theorem spaces_whole_word_count (nm : String) (n : Nat) :
    whole_word_count ⟨nm, List.replicate n 32, n⟩ [32] = n := by
  rw [whole_word_count_eq _ _ (spaces_strlen n).symm (by decide)]
  simp only []
  rw [spaces_strlen]
  exact spaces_hits nm n n n (le_refl _)

/-- C1, as stated, fails: the text of `2^31` spaces (2 GiB) and the keyword " " meet the
conditions of the claim, every offset below `2^31` is a whole-word match, so the number
of such offsets is `2^31`, which no `int` holds: `search_one` returns `-2^31`. -/
theorem search_one_stupid_count_overflows :
    (∀ b ∈ (⟨"spaces", List.replicate 2147483648 32, 2147483648⟩ : text).contents, b ≠ 0) ∧
    (⟨"spaces", List.replicate 2147483648 32, 2147483648⟩ : text).length =
      (⟨"spaces", List.replicate 2147483648 32, 2147483648⟩ : text).contents.length ∧
    0 < strlen [32] ∧
    whole_word_count ⟨"spaces", List.replicate 2147483648 32, 2147483648⟩ [32] = 2147483648 ∧
    search_one (2147483648 + 1) stupid_str_search
      ⟨"spaces", List.replicate 2147483648 32, 2147483648⟩ [32] false = some (-2147483648) := by
  refine ⟨spaces_ne_zero _, (List.length_replicate _ _).symm, by decide,
    spaces_whole_word_count _ _, ?_⟩
  rw [search_one_stupid_wrapped ⟨"spaces", List.replicate 2147483648 32, 2147483648⟩ [32]
    false (2147483648 + 1) (spaces_ne_zero _) (List.length_replicate _ _).symm
    (by decide) (le_refl _), spaces_whole_word_count]
  rfl

/-- C1, amended. For a text without interior NUL bytes whose recorded length is its byte
length, and a non-empty keyword, when the number of offsets that are whole-word matches
in the words of the specification is below `2^31`, `search_one` with the brute-force
matcher returns exactly that number, whenever it is given fuel for `length + 1` matcher
calls. -/
theorem search_one_stupid_counts_whole_words (txt : text) (keyword : List Nat)
    (print_matches : Bool) (fuel : Nat)
    (hnul : ∀ b ∈ txt.contents, b ≠ 0) (hlen : txt.length = txt.contents.length)
    (hk : 0 < strlen keyword) (hfuel : txt.length + 1 ≤ fuel)
    (hint : whole_word_count txt keyword < 2147483648) :
    search_one fuel stupid_str_search txt keyword print_matches =
      some (whole_word_count txt keyword : Int) := by
  rw [search_one_stupid_wrapped txt keyword print_matches fuel hnul hlen hk hfuel,
    int_wrap_of_lt _ hint]

/-- Witness for C1 (amended): the text "a cat." and the keyword "cat". -/
theorem search_one_stupid_counts_whole_words_witness :
    search_one 7 stupid_str_search ⟨"w", bytes "a cat.", 6⟩ (bytes "cat") false =
      some (whole_word_count ⟨"w", bytes "a cat.", 6⟩ (bytes "cat") : Int) ∧
    whole_word_count ⟨"w", bytes "a cat.", 6⟩ (bytes "cat") = 1 :=
  ⟨search_one_stupid_counts_whole_words ⟨"w", bytes "a cat.", 6⟩ (bytes "cat") false 7
    (by decide) (by decide) (by decide) (by decide) (by decide), by decide⟩

/-- C2, as stated, fails: in the 32-byte text "aaaaaaaaaaaaaaaaaaaaaaaaaaaaaaab" the
keyword "b" stands at offset 31; the brute-force and library matchers yield the sequence
`[31]`, the vectorized matcher, whose only window starts at offset 0, yields `[]`. -/
theorem raw_offsets_simd_differs :
    strlen (bytes "aaaaaaaaaaaaaaaaaaaaaaaaaaaaaaab") = 32 ∧
    raw_offsets stupid_str_search (bytes "aaaaaaaaaaaaaaaaaaaaaaaaaaaaaaab") (bytes "b") 33 0 =
      some [31] ∧
    raw_offsets regular_str_search (bytes "aaaaaaaaaaaaaaaaaaaaaaaaaaaaaaab") (bytes "b") 33 0 =
      some [31] ∧
    raw_offsets simd_str_search (bytes "aaaaaaaaaaaaaaaaaaaaaaaaaaaaaaab") (bytes "b") 33 0 =
      some [] := by
  decide

/-- C2, amended. For every text of length `n >= 32`, every keyword of length `<= 32` and
every start offset within the text, with fuel for `n + 1` calls: the sequence of raw
offsets of `regular_str_search` is that of `stupid_str_search` when the keyword is not
empty, and the sequence of `simd_str_search` is that of `stupid_str_search` restricted to
the offsets `<= n - 32`.  Bytes are values below 256. -/
theorem raw_offsets_of_matchers (txt keyword : List Nat) (start fuel : Nat)
    (hn : 32 ≤ strlen txt) (hm : strlen keyword ≤ 32) (hstart : start ≤ strlen txt)
    (ht : ∀ b ∈ txt, b < 256) (hk : ∀ b ∈ keyword, b < 256) (hfuel : strlen txt + 1 ≤ fuel) :
    ∃ l, raw_offsets stupid_str_search txt keyword fuel start = some l ∧
      (0 < strlen keyword → raw_offsets regular_str_search txt keyword fuel start = some l) ∧
      raw_offsets simd_str_search txt keyword fuel start =
        some (l.filter (fun x => decide (x ≤ (strlen txt : Int) - 32))) := by
  refine ⟨(hits_from (occurs_at txt keyword) (strlen txt) start).map Int.ofNat, ?_, ?_, ?_⟩
  · exact raw_offsets_spec stupid_str_search txt keyword _ _ _ (le_refl _)
      (stupid_finds_first txt keyword) fuel start hstart (by omega)
  · intro h0
    exact raw_offsets_spec regular_str_search txt keyword _ _ _ (le_refl _)
      (regular_finds_first txt keyword h0) fuel start hstart (by omega)
  · rw [raw_offsets_spec simd_str_search txt keyword _ (strlen txt) (strlen txt - 31)
      (by omega) (simd_finds_first txt keyword hn hm ht hk) fuel start hstart (by omega)]
    congr 1
    rw [List.filter_map, ← hits_from_filter_lt (occurs_at txt keyword) start (strlen txt - 31)
      (strlen txt) (by omega)]
    congr 1
    apply List.filter_congr
    intro x _
    rw [Bool.eq_iff_iff]
    simp only [Function.comp, decide_eq_true_eq, Int.ofNat_eq_coe]
    constructor <;> intro h <;> omega

/-- Witness for C2 (amended): the keyword "ab" in a 36-byte text, sought from offset 0. -/
theorem raw_offsets_of_matchers_witness :
    ∃ l, raw_offsets stupid_str_search (bytes "xxabxxxxxxxxxxxxxxxxxxxxxxxxxxxxxxab")
        (bytes "ab") 37 0 = some l ∧
      (0 < strlen (bytes "ab") →
        raw_offsets regular_str_search (bytes "xxabxxxxxxxxxxxxxxxxxxxxxxxxxxxxxxab")
          (bytes "ab") 37 0 = some l) ∧
      raw_offsets simd_str_search (bytes "xxabxxxxxxxxxxxxxxxxxxxxxxxxxxxxxxab")
          (bytes "ab") 37 0 =
        some (l.filter (fun x => decide
          (x ≤ (strlen (bytes "xxabxxxxxxxxxxxxxxxxxxxxxxxxxxxxxxab") : Int) - 32))) :=
  raw_offsets_of_matchers (bytes "xxabxxxxxxxxxxxxxxxxxxxxxxxxxxxxxxab") (bytes "ab") 0 37
    (by decide) (by decide) (by decide) (by decide) (by decide) (by decide)

/-- C3, as stated, fails: at the end of the text "cat" the library matcher finds the
empty keyword (offset 3) and the brute-force matcher returns `-1`. -/
theorem regular_ne_stupid_empty_keyword :
    regular_str_search (bytes "cat") [] 3 = 3 ∧ stupid_str_search (bytes "cat") [] 3 = -1 ∧
      regular_str_search (bytes "cat") [] 3 ≠ stupid_str_search (bytes "cat") [] 3 := by
  decide

/-- C3, amended. For every NUL-terminated text, every keyword and every start offset up
to the text length, `regular_str_search` and `stupid_str_search` return the same result,
except for the empty keyword at the start offset equal to the text length, where the
library matcher returns that offset and the brute-force matcher returns `-1`. -/
theorem regular_str_search_eq_stupid (txt keyword : List Nat) (start : Nat)
    (hstart : start ≤ strlen txt) :
    ((0 < strlen keyword ∨ start < strlen txt) →
      regular_str_search txt keyword start = stupid_str_search txt keyword start) ∧
    ((strlen keyword = 0 ∧ start = strlen txt) →
      regular_str_search txt keyword start = (start : Int) ∧
        stupid_str_search txt keyword start = -1) := by
  refine ⟨regular_eq_stupid txt keyword start hstart, ?_⟩
  rintro ⟨h0, hs⟩
  have hocc : occurs_at txt keyword start = true := by
    rw [occurs_at_iff]
    exact ⟨by omega, by intro q hq; omega⟩
  constructor
  · rcases regular_spec txt keyword start hstart with ⟨_, r2⟩ | ⟨r, r1, r2, r3, _, _⟩
    · have := r2 start (le_refl _) hstart
      rw [hocc] at this
      exact Bool.noConfusion this
    · have : r = start := by omega
      rw [r1, this]
  · rcases stupid_finds_first txt keyword start hstart with ⟨s1, _⟩ | ⟨r, _, s2, s3, _, _⟩
    · exact s1
    · omega

/-- Witness for C3 (amended): the keyword "cat" sought in "a cat" from offset 1. -/
theorem regular_str_search_eq_stupid_witness :
    regular_str_search (bytes "a cat") (bytes "cat") 1 =
      stupid_str_search (bytes "a cat") (bytes "cat") 1 :=
  (regular_str_search_eq_stupid (bytes "a cat") (bytes "cat") 1 (by decide)).1
    (Or.inl (by decide))

/-- C4. For every NUL-terminated text, non-empty keyword and start offset up to the text
length, `stupid_str_search` returns the least offset `i >= start` at which the keyword
occurs (all keyword bytes equal the text bytes at `i .. i + keyword_length - 1`), and it
returns `-1` exactly when there is no such offset. -/
theorem stupid_str_search_least (txt keyword : List Nat) (start : Nat)
    (hk : 0 < strlen keyword) (hstart : start ≤ strlen txt) :
    (stupid_str_search txt keyword start = -1 ↔
      ¬ ∃ i, start ≤ i ∧ occurs_at txt keyword i = true) ∧
    (∀ i : Nat, stupid_str_search txt keyword start = (i : Int) ↔
      (start ≤ i ∧ occurs_at txt keyword i = true ∧
        ∀ k, start ≤ k → k < i → occurs_at txt keyword k = false)) ∧
    (stupid_str_search txt keyword start = -1 ∨
      ∃ i : Nat, stupid_str_search txt keyword start = (i : Int)) := by
  rcases stupid_finds_first txt keyword start hstart with ⟨s1, s2⟩ | ⟨r, s1, s2, s3, s4, s5⟩
  · have hnone : ∀ i, start ≤ i → occurs_at txt keyword i = false := by
      intro i hi
      rw [Bool.eq_false_iff]
      intro h
      have := s2 i hi (occurs_at_lt txt keyword i hk h)
      rw [h] at this
      exact Bool.noConfusion this
    refine ⟨?_, ?_, Or.inl s1⟩
    · constructor
      · rintro - ⟨i, h1, h2⟩
        rw [hnone i h1] at h2
        exact Bool.noConfusion h2
      · intro _; exact s1
    · intro i
      rw [s1]
      constructor
      · intro h; omega
      · rintro ⟨h1, h2, _⟩
        rw [hnone i h1] at h2
        exact Bool.noConfusion h2
  · refine ⟨?_, ?_, Or.inr ⟨r, s1⟩⟩
    · rw [s1]
      constructor
      · intro h; omega
      · intro h; exact absurd ⟨r, s2, s4⟩ h
    · intro i
      rw [s1]
      constructor
      · intro h
        have : r = i := by omega
        subst this
        exact ⟨s2, s4, s5⟩
      · rintro ⟨h1, h2, h3⟩
        rcases Nat.lt_trichotomy r i with h | h | h
        · have := h3 r s2 h
          rw [s4] at this
          exact Bool.noConfusion this
        · rw [h]
        · have := s5 i h1 h
          rw [h2] at this
          exact Bool.noConfusion this

/-- Witness for C4: "cat" sought in "cats category" from offset 1 is found at offset 5. -/
theorem stupid_str_search_least_witness :
    stupid_str_search (bytes "cats category") (bytes "cat") 1 = (5 : Nat) ∧
      occurs_at (bytes "cats category") (bytes "cat") 5 = true :=
  have h := (stupid_str_search_least (bytes "cats category") (bytes "cat") 1
    (by decide) (by decide)).2.1 5
  ⟨by decide, (h.mp (by decide)).2.1⟩

/-- C5. For every corpus, keyword, matcher and amount of fuel, the total `main` computes
in parallel mode (the worker on documents `[0, length/2)` plus the worker on
`[length/2, length)`) equals the total of the sequential loop with printing disabled;
neither has a result when some document's scan has none, and both have one when every
document's scan returns. -/
theorem parallel_count_eq_sequential (fuel : Nat) (search_f : str_search_t) (c : corpus)
    (keyword : List Nat) (print_matches : Bool) :
    main_count fuel true search_f c keyword print_matches =
      main_count fuel false search_f c keyword false ∧
    ((∀ t ∈ c.texts, (search_one fuel search_f t keyword false).isSome = true) →
      (main_count fuel true search_f c keyword print_matches).isSome = true) := by
  have heq : main_count fuel true search_f c keyword print_matches =
      main_count fuel false search_f c keyword false := by
    unfold main_count search_thread
    simp only [if_true, Bool.false_eq_true, if_false, search_thread_loop_eq, Nat.sub_zero]
    have hsplit : c.length = c.length / 2 + (c.length - c.length / 2) := by
      have := Nat.div_le_self c.length 2
      omega
    conv => rhs; rw [hsplit]
    rw [main_loop_add]
    cases h1 : main_loop fuel search_f c keyword false (c.length / 2) 0 0 with
    | none => rfl
    | some r1 =>
      simp only [Option.some_bind, Nat.zero_add]
      rw [main_loop_acc search_f c keyword false fuel _ _ r1
        (main_loop_valid search_f c keyword false fuel _ _ _ _ (by decide) h1)]
      cases main_loop fuel search_f c keyword false (c.length - c.length / 2) (c.length / 2) 0 with
      | none => rfl
      | some r2 =>
        simp only [Option.map_some']
        congr 1
        unfold int_wrap
        omega
  refine ⟨heq, ?_⟩
  intro h
  rw [heq]
  unfold main_count
  simp only [Bool.false_eq_true, if_false]
  exact main_loop_some search_f c keyword false fuel h c.length 0 0 (by simp [corpus.length])

/-- Witness for C5: a corpus of three documents, brute-force matcher. -/
theorem parallel_count_eq_sequential_witness :
    main_count 12 true stupid_str_search
        ⟨[⟨"A", bytes "the cat sat", 11⟩, ⟨"B", bytes "catalog cat", 11⟩, ⟨"C", bytes "cat", 3⟩]⟩
        (bytes "cat") false = some 3 ∧
      (main_count 12 true stupid_str_search
        ⟨[⟨"A", bytes "the cat sat", 11⟩, ⟨"B", bytes "catalog cat", 11⟩, ⟨"C", bytes "cat", 3⟩]⟩
        (bytes "cat") false).isSome = true :=
  ⟨by decide, (parallel_count_eq_sequential 12 stupid_str_search
    ⟨[⟨"A", bytes "the cat sat", 11⟩, ⟨"B", bytes "catalog cat", 11⟩, ⟨"C", bytes "cat", 3⟩]⟩
    (bytes "cat") false).2 (by decide)⟩

theorem stupid_outer_ge (txt keyword : List Nat) :
    ∀ fuel i, stupid_outer txt keyword fuel i = -1 ∨
      (i : Int) ≤ stupid_outer txt keyword fuel i := by
  intro fuel
  induction fuel with
  | zero => intro i; left; rfl
  | succ fuel ih =>
    intro i
    unfold stupid_outer
    split
    · simp only []
      split
      · right; exact le_refl _
      · rcases ih (i + 1) with h | h
        · left; exact h
        · right; omega
    · left; rfl

/-- C6. If the keyword is longer than 32 bytes or the text is shorter than 32 bytes,
`simd_str_search` returns `-1`, whatever the contents and the start offset. -/
theorem simd_str_search_unsupported (txt keyword : List Nat) (offset : Nat)
    (h : strlen keyword > 32 ∨ strlen txt < 32) : simd_str_search txt keyword offset = -1 := by
  unfold simd_str_search
  have : strlen txt < 32 ∨ strlen keyword > 32 := h.symm
  simp only [this, if_true]

/-- Witness for C6: the 11-byte text "catalog cat" holds the keyword "cat", and the
vectorized matcher returns `-1` while the brute-force matcher finds offset 0. -/
theorem simd_str_search_unsupported_witness :
    simd_str_search (bytes "catalog cat") (bytes "cat") 0 = -1 ∧
      stupid_str_search (bytes "catalog cat") (bytes "cat") 0 = 0 :=
  ⟨simd_str_search_unsupported (bytes "catalog cat") (bytes "cat") 0 (Or.inr (by decide)),
    by decide⟩

/-- C7. Each of the three matchers, on every text, keyword and start offset, returns
either `-1` or an offset that is `>=` the start offset. -/
theorem matchers_result_ge_start :
    (∀ txt keyword start, stupid_str_search txt keyword start = -1 ∨
      (start : Int) ≤ stupid_str_search txt keyword start) ∧
    (∀ txt keyword start, regular_str_search txt keyword start = -1 ∨
      (start : Int) ≤ regular_str_search txt keyword start) ∧
    (∀ txt keyword start, simd_str_search txt keyword start = -1 ∨
      (start : Int) ≤ simd_str_search txt keyword start) := by
  refine ⟨?_, ?_, ?_⟩
  · intro txt keyword start
    exact stupid_outer_ge txt keyword _ start
  · intro txt keyword start
    unfold regular_str_search
    cases strstr (txt.drop start) keyword with
    | none => left; rfl
    | some p => right; simp only []; omega
  · intro txt keyword start
    unfold simd_str_search
    simp only []
    split
    · left; rfl
    · rcases simd_loop_spec txt (mm256_loadu_si256 (keyword_padded keyword (strlen keyword)) 0)
        (mm256_loadu_si256 (keyword_mask (strlen keyword)) 0) (strlen txt)
        (strlen txt - 32 + 1 - start) start (by omega) with ⟨h1, _⟩ | ⟨r, h1, h2, _, _, _⟩
      · left; exact h1
      · right; rw [h1]; omega

/-- C8. On the text "cats category the cat sat" with the keyword "cat", `search_one`
returns 1 with the brute-force matcher and 1 with the library matcher, for every amount
of fuel from 26 on and whether or not matches are printed; the one index counted is 18,
the standalone "cat", and not 0 ("cats") or 5 ("category"). -/
theorem whole_word_filtering_example (extra : Nat) (print_matches : Bool) :
    search_one (26 + extra) stupid_str_search ⟨"doc", bytes "cats category the cat sat", 25⟩
      (bytes "cat") print_matches = some 1 ∧
    search_one (26 + extra) regular_str_search ⟨"doc", bytes "cats category the cat sat", 25⟩
      (bytes "cat") print_matches = some 1 ∧
    (search_one_run (26 + extra) stupid_str_search
      ⟨"doc", bytes "cats category the cat sat", 25⟩ (bytes "cat") print_matches).map
        (fun st => st.hits) = some [18] ∧
    (search_one_run (26 + extra) regular_str_search
      ⟨"doc", bytes "cats category the cat sat", 25⟩ (bytes "cat") print_matches).map
        (fun st => st.hits) = some [18] := by
  refine ⟨?_, ?_, ?_, ?_⟩
  · apply search_one_mono
    cases print_matches <;> decide
  · apply search_one_mono
    cases print_matches <;> decide
  · apply search_one_run_mono
    cases print_matches <;> decide
  · apply search_one_run_mono
    cases print_matches <;> decide

/-- C9. For every text whose recorded length is its byte length and every non-empty
keyword, with the brute-force or the library matcher and fuel for `length + 1` matcher
calls, `search_one` returns, having counted each index of `hits` once (its `int` result is
the number of these indices, reduced to 32 bits when there are `2^31` or more), and: if
the keyword occurs at offset 0 and the byte after it is absent or not an ASCII letter, offset
0 is counted; if the keyword occurs at `length - keyword_length`, ending at the text end,
and the byte before it is absent or not an ASCII letter, that offset is counted; and
every index of `text.contents` that `search_one` reads is `>= 0` and `< length`. -/
theorem boundary_matches_counted (txt : text) (keyword : List Nat) (print_matches : Bool)
    (fuel : Nat) (search_f : str_search_t)
    (hf : search_f = stupid_str_search ∨ search_f = regular_str_search)
    (hlen : txt.length = txt.contents.length) (hk : 0 < strlen keyword)
    (hfuel : txt.length + 1 ≤ fuel) :
    ∃ st, search_one_run fuel search_f txt keyword print_matches = some st ∧
      search_one fuel search_f txt keyword print_matches =
        some (int_wrap (st.hits.length : Int)) ∧
      (st.hits.length < 2147483648 →
        search_one fuel search_f txt keyword print_matches = some (st.hits.length : Int)) ∧
      ((occurs_at txt.contents keyword 0 = true ∧
          (strlen keyword = txt.length ∨
            is_letter (cread txt.contents (strlen keyword)) = false)) →
        (0 : Int) ∈ st.hits) ∧
      ((strlen keyword ≤ txt.length ∧
          occurs_at txt.contents keyword (txt.length - strlen keyword) = true ∧
          (txt.length - strlen keyword = 0 ∨
            is_letter (cread txt.contents (txt.length - strlen keyword - 1)) = false)) →
        ((txt.length - strlen keyword : Nat) : Int) ∈ st.hits) ∧
      (∀ x ∈ st.reads, 0 ≤ x ∧ x < (txt.length : Int)) := by
  have hN : strlen txt.contents ≤ txt.length := by
    rw [hlen]; exact strlen_le_length _
  have hff : finds_first (search_f txt.contents keyword) (occurs_at txt.contents keyword)
      (strlen txt.contents) (strlen txt.contents) := by
    rcases hf with h | h
    · rw [h]; exact stupid_finds_first _ _
    · rw [h]; exact regular_finds_first _ _ hk
  obtain ⟨st, e1, e2, e3, e4⟩ := search_one_loop_spec search_f txt keyword print_matches
    (occurs_at txt.contents keyword) (strlen txt.contents) (strlen txt.contents) (le_refl _) hff
    fuel 0 ⟨0, [], [], [], []⟩ (Nat.zero_le _) (by omega) (by decide)
  have hmem : ∀ i : Nat, occurs_at txt.contents keyword i = true →
      boundary_ok txt keyword i = true → (i : Int) ∈ st.hits := by
    intro i h1 h2
    rw [e3]
    simp only [List.nil_append, List.mem_map]
    refine ⟨i, ?_, rfl⟩
    rw [mem_hits_from]
    exact ⟨occurs_at_lt _ _ _ hk h1, Nat.zero_le _, by simp [h1, h2]⟩
  have hcount : search_one fuel search_f txt keyword print_matches =
      some (int_wrap (st.hits.length : Int)) := by
    unfold search_one search_one_run
    rw [e1, Option.map_some', e2, e3]
    simp only [Int.zero_add, List.nil_append, List.length_map]
  refine ⟨st, e1, hcount, ?_, ?_, ?_, ?_⟩
  · intro hlt
    rw [hcount, int_wrap_of_lt _ hlt]
  · rintro ⟨h1, h2⟩
    apply hmem 0 h1
    apply boundary_ok_of txt keyword 0 (Or.inl rfl)
    rcases h2 with h2 | h2
    · left; omega
    · right; rw [Nat.zero_add]; exact h2
  · rintro ⟨h0, h1, h2⟩
    apply hmem _ h1
    exact boundary_ok_of txt keyword _ h2 (Or.inl (by omega))
  · exact e4 hN (by intro x hx; simp at hx)

/-- Witness for C9: the text "cat" is the keyword "cat"; the match is at offset 0 and
ends at the text end. -/
theorem boundary_matches_counted_witness :
    ∃ st, search_one_run 4 regular_str_search ⟨"w", bytes "cat", 3⟩ (bytes "cat") false =
        some st ∧ (0 : Int) ∈ st.hits ∧ ((3 - strlen (bytes "cat") : Nat) : Int) ∈ st.hits :=
  match boundary_matches_counted ⟨"w", bytes "cat", 3⟩ (bytes "cat") false 4
    regular_str_search (Or.inr rfl) (by decide) (by decide) (by decide) with
  | ⟨st, h1, _, _, h2, h3, _⟩ =>
    ⟨st, h1, h2 ⟨by decide, Or.inl (by decide)⟩,
      h3 ⟨by decide, by decide, Or.inl (by decide)⟩⟩

/-- C10. For the corpus of the documents "the cat sat" and "catalog cat" and the keyword
"cat", the sequential total of `main` is 2 with the brute-force matcher and 2 with the
library matcher, one match in each document, for every amount of fuel from 12 on; both
documents are shorter than 32 bytes. -/
theorem end_to_end_example (extra : Nat) :
    main_count (12 + extra) false stupid_str_search
      ⟨[⟨"A", bytes "the cat sat", 11⟩, ⟨"B", bytes "catalog cat", 11⟩]⟩ (bytes "cat") false =
        some 2 ∧
    main_count (12 + extra) false regular_str_search
      ⟨[⟨"A", bytes "the cat sat", 11⟩, ⟨"B", bytes "catalog cat", 11⟩]⟩ (bytes "cat") false =
        some 2 ∧
    search_one (12 + extra) stupid_str_search ⟨"A", bytes "the cat sat", 11⟩ (bytes "cat")
      false = some 1 ∧
    search_one (12 + extra) stupid_str_search ⟨"B", bytes "catalog cat", 11⟩ (bytes "cat")
      false = some 1 ∧
    search_one (12 + extra) regular_str_search ⟨"A", bytes "the cat sat", 11⟩ (bytes "cat")
      false = some 1 ∧
    search_one (12 + extra) regular_str_search ⟨"B", bytes "catalog cat", 11⟩ (bytes "cat")
      false = some 1 ∧
    strlen (bytes "the cat sat") < 32 ∧ strlen (bytes "catalog cat") < 32 := by
  refine ⟨?_, ?_, ?_, ?_, ?_, ?_, by decide, by decide⟩
  · unfold main_count
    simp only [Bool.false_eq_true, if_false]
    apply main_loop_mono
    decide
  · unfold main_count
    simp only [Bool.false_eq_true, if_false]
    apply main_loop_mono
    decide
  · apply search_one_mono; decide
  · apply search_one_mono; decide
  · apply search_one_mono; decide
  · apply search_one_mono; decide

/-! ## Claims on the partition, the windows and the scan -/

theorem main_count_parallel (fuel : Nat) (search_f : str_search_t) (c : corpus)
    (keyword : List Nat) (print_matches : Bool) :
    main_count fuel true search_f c keyword print_matches =
      match search_thread fuel (main_ctx1 search_f c keyword),
          search_thread fuel (main_ctx2 search_f c keyword) with
      | some r1, some r2 => some (int_wrap (int_wrap (0 + r1) + r2))
      | _, _ => none := by
  rfl

/-- C11. For every corpus, of length `n`, the two worker ranges built in `main` are
`[0, n/2)` and `[n/2, n)`: the second starts where the first ends, no index lies in both,
an index lies in one of them exactly when it is below `n`, and the second range has the
size of the first when `n` is even and one document more when `n` is odd. -/
theorem worker_ranges_split_corpus (search_f : str_search_t) (c : corpus)
    (keyword : List Nat) :
    (main_ctx1 search_f c keyword).start = 0 ∧
    (main_ctx1 search_f c keyword).end_ = c.length / 2 ∧
    (main_ctx2 search_f c keyword).start = (main_ctx1 search_f c keyword).end_ ∧
    (main_ctx2 search_f c keyword).end_ = c.length ∧
    (∀ i, ¬ (in_range (main_ctx1 search_f c keyword) i ∧
      in_range (main_ctx2 search_f c keyword) i)) ∧
    (∀ i, i < c.length ↔ (in_range (main_ctx1 search_f c keyword) i ∨
      in_range (main_ctx2 search_f c keyword) i)) ∧
    ((c.length % 2 = 0 ∧
        (main_ctx2 search_f c keyword).end_ - (main_ctx2 search_f c keyword).start =
          (main_ctx1 search_f c keyword).end_ - (main_ctx1 search_f c keyword).start) ∨
      (c.length % 2 = 1 ∧
        (main_ctx2 search_f c keyword).end_ - (main_ctx2 search_f c keyword).start =
          (main_ctx1 search_f c keyword).end_ - (main_ctx1 search_f c keyword).start + 1)) := by
  refine ⟨rfl, rfl, rfl, rfl, ?_, ?_, ?_⟩
  · intro i
    simp only [in_range, main_ctx1, main_ctx2]
    omega
  · intro i
    simp only [in_range, main_ctx1, main_ctx2]
    omega
  · simp only [main_ctx1, main_ctx2]
    omega

theorem testz_self_eq (txt keyword : List Nat) (i : Nat) :
    mm256_testz_si256
      (mm256_and_si256 (mm256_xor_si256 (mm256_loadu_si256 txt i)
        (mm256_loadu_si256 (keyword_padded keyword (strlen keyword)) 0))
        (mm256_loadu_si256 (keyword_mask (strlen keyword)) 0))
      (mm256_and_si256 (mm256_xor_si256 (mm256_loadu_si256 txt i)
        (mm256_loadu_si256 (keyword_padded keyword (strlen keyword)) 0))
        (mm256_loadu_si256 (keyword_mask (strlen keyword)) 0)) =
    masked_window_zero txt keyword i := by
  unfold keyword_padded keyword_mask
  rw [loadu_map_range, loadu_map_range]
  unfold mm256_testz_si256 mm256_and_si256 mm256_xor_si256 mm256_loadu_si256 masked_window_zero
  simp only [List.zipWith_map_left, List.zipWith_map_right, List.zipWith_same, List.map_map,
    List.all_map, Function.comp, Nat.and_self]
  rfl

/-- C12. For every text of length `n >= 32`, keyword of length `m <= 32` and start offset,
`simd_str_search` returns the least `i` with `start <= i <= n - 32` at which the masked
test of the specification is zero, and `-1` when there is no such `i`; and, bytes being
values below 256, the masked test at `i` is zero exactly when `text[i + k] = keyword[k]`
for every `k < m`. -/
theorem simd_str_search_first_zero_window (txt keyword : List Nat) (start : Nat)
    (hn : 32 ≤ strlen txt) (hm : strlen keyword ≤ 32)
    (ht : ∀ b ∈ txt, b < 256) (hk : ∀ b ∈ keyword, b < 256) :
    ((simd_str_search txt keyword start = -1 ∧
        ∀ i, start ≤ i → i ≤ strlen txt - 32 → masked_window_zero txt keyword i = false) ∨
      (∃ r : Nat, simd_str_search txt keyword start = (r : Int) ∧ start ≤ r ∧
        r ≤ strlen txt - 32 ∧ masked_window_zero txt keyword r = true ∧
        ∀ i, start ≤ i → i < r → masked_window_zero txt keyword i = false)) ∧
    (∀ i, masked_window_zero txt keyword i = true ↔
      ∀ k, k < strlen keyword → cread txt (i + k) = cread keyword k) := by
  constructor
  · have hguard : ¬ (strlen txt < 32 ∨ strlen keyword > 32) := by omega
    unfold simd_str_search
    simp only [hguard, if_false]
    rcases simd_loop_spec txt (mm256_loadu_si256 (keyword_padded keyword (strlen keyword)) 0)
        (mm256_loadu_si256 (keyword_mask (strlen keyword)) 0) (strlen txt)
        (strlen txt - 32 + 1 - start) start (by omega) with ⟨h1, h2⟩ | ⟨r, h1, h2, h3, h4, h5⟩
    · left
      refine ⟨h1, ?_⟩
      intro i hi1 hi2
      rw [← testz_self_eq]
      exact h2 i hi1 hi2
    · right
      refine ⟨r, h1, h2, h3, ?_, ?_⟩
      · rw [← testz_self_eq]; exact h4
      · intro i hi1 hi2
        rw [← testz_self_eq]
        exact h5 i hi1 hi2
  · intro i
    rw [← testz_self_eq]
    exact simd_test_iff txt keyword i hm ht hk

/-- Witness for C12: the keyword "ab" is found at offset 2 of a 36-byte text. -/
theorem simd_str_search_first_zero_window_witness :
    simd_str_search (bytes "xxabxxxxxxxxxxxxxxxxxxxxxxxxxxxxxxab") (bytes "ab") 0 = 2 ∧
      (masked_window_zero (bytes "xxabxxxxxxxxxxxxxxxxxxxxxxxxxxxxxxab") (bytes "ab") 2 = true ↔
        ∀ k, k < strlen (bytes "ab") →
          cread (bytes "xxabxxxxxxxxxxxxxxxxxxxxxxxxxxxxxxab") (2 + k) = cread (bytes "ab") k) :=
  ⟨by decide, (simd_str_search_first_zero_window (bytes "xxabxxxxxxxxxxxxxxxxxxxxxxxxxxxxxxab")
    (bytes "ab") 0 (by decide) (by decide) (by decide) (by decide)).2 2⟩

/-- C13. The result of `simd_str_search` is `-1` or an offset `r` with
`r + 32 <= text_length`, for all inputs; and in the 34-byte text
"quick brown fox and the lazy : cat" the keyword "cat" occurs at offset 31, after the
start offset 5: `stupid_str_search` returns 31 and `simd_str_search` returns `-1`. -/
theorem simd_window_bound_misses_tail :
    (∀ txt keyword start, simd_str_search txt keyword start = -1 ∨
      ∃ r : Nat, simd_str_search txt keyword start = (r : Int) ∧ r + 32 ≤ strlen txt) ∧
    (32 ≤ strlen (bytes "quick brown fox and the lazy : cat") ∧
      strlen (bytes "cat") ≤ 32 ∧
      occurs_at (bytes "quick brown fox and the lazy : cat") (bytes "cat") 31 = true ∧
      stupid_str_search (bytes "quick brown fox and the lazy : cat") (bytes "cat") 5 = 31 ∧
      simd_str_search (bytes "quick brown fox and the lazy : cat") (bytes "cat") 5 = -1) := by
  constructor
  · intro txt keyword start
    unfold simd_str_search
    simp only []
    split
    · left; rfl
    · rename_i hg
      rcases simd_loop_spec txt (mm256_loadu_si256 (keyword_padded keyword (strlen keyword)) 0)
        (mm256_loadu_si256 (keyword_mask (strlen keyword)) 0) (strlen txt)
        (strlen txt - 32 + 1 - start) start (by omega) with ⟨h1, _⟩ | ⟨r, h1, _, h3, _, _⟩
      · left; exact h1
      · right; exact ⟨r, h1, by omega⟩
  · decide

/-- The window `search_one` prints for a match at `index` with `index + m <= L`: it lies
inside the text, contains the match and has at most 20 bytes before the match; after the
match it has at most 20 bytes when `index >= 20`, and `min (40 - index) (L - index - m)`
bytes when `index < 20`. -/
theorem print_window_facts (txt : text) (m index : Nat) (h : index + m ≤ txt.length) :
    match_start (index : Int) ≤ index ∧
    index - match_start (index : Int) ≤ 20 ∧
    (match_start (index : Int) : Int) + match_len txt m (index : Int) ≤ (txt.length : Int) ∧
    ((index + m : Nat) : Int) ≤ (match_start (index : Int) : Int) + match_len txt m (index : Int) ∧
    (20 ≤ index →
      (match_start (index : Int) : Int) + match_len txt m (index : Int) -
        ((index + m : Nat) : Int) ≤ 20) ∧
    (index < 20 →
      (match_start (index : Int) : Int) + match_len txt m (index : Int) -
        ((index + m : Nat) : Int) = ((min (40 - index) (txt.length - index - m) : Nat) : Int)) := by
  unfold match_len match_start full_match_len match_context
  by_cases h20 : (index : Int) ≥ ((20 : Nat) : Int)
  · simp only [h20, if_true]
    have e : ((index : Int) - ((20 : Nat) : Int)).toNat = index - 20 := by omega
    rw [e]
    split <;> refine ⟨?_, ?_, ?_, ?_, ?_, ?_⟩ <;> intros <;> omega
  · simp only [h20, if_false]
    split <;> refine ⟨?_, ?_, ?_, ?_, ?_, ?_⟩ <;> intros <;> omega

/-- C14 fails on the code: in the 49-byte text "cat is the first word of this line of
plain text." the keyword "cat" is counted at index 0, and the window printed for it
starts at 0 and has 43 bytes: 40 bytes follow the match, not at most 20. -/
theorem print_window_after_context_exceeds :
    (search_one_run 50 stupid_str_search
      ⟨"doc", bytes "cat is the first word of this line of plain text.", 49⟩ (bytes "cat")
      true).map (fun st => (st.hits, st.printed)) = some ([0], [(0, 43)]) ∧
    match_start 0 = 0 ∧
    match_len ⟨"doc", bytes "cat is the first word of this line of plain text.", 49⟩
      (strlen (bytes "cat")) 0 = 43 ∧
    (match_start 0 : Int) +
      match_len ⟨"doc", bytes "cat is the first word of this line of plain text.", 49⟩
        (strlen (bytes "cat")) 0 - (0 + (strlen (bytes "cat") : Int)) = 40 := by
  decide

theorem simd_loop_loads_fst (txt : List Nat) (keywordv mask : m256i) (text_len : Nat) :
    ∀ fuel i, (simd_loop_loads txt keywordv mask text_len fuel i).1 =
      simd_loop txt keywordv mask text_len fuel i := by
  intro fuel
  induction fuel with
  | zero => intro i; rfl
  | succ fuel ih =>
    intro i
    unfold simd_loop_loads simd_loop
    split
    · simp only []
      split
      · rfl
      · exact ih (i + 1)
    · rfl

theorem simd_loop_loads_bound (txt : List Nat) (keywordv mask : m256i) (text_len : Nat) :
    ∀ fuel i, ∀ w ∈ (simd_loop_loads txt keywordv mask text_len fuel i).2,
      i ≤ w ∧ w ≤ text_len - 32 := by
  intro fuel
  induction fuel with
  | zero => intro i w hw; simp [simd_loop_loads] at hw
  | succ fuel ih =>
    intro i w hw
    unfold simd_loop_loads at hw
    split at hw
    · rename_i hc
      simp only [] at hw
      split at hw
      · simp only [List.mem_singleton] at hw
        subst hw
        exact ⟨le_refl _, hc⟩
      · simp only [List.mem_cons] at hw
        rcases hw with hw | hw
        · subst hw; exact ⟨le_refl _, hc⟩
        · have := ih (i + 1) w hw
          omega
    · simp at hw

/-- C15. The result recorded with the loads is the result of `simd_str_search`; every
window the function loads from the text starts at an index `i >= start` with
`i + 32 <= n`, `n` the text length (so `n >= 32`), and a load at `i` reads the bytes at
the indices `i + k`, `k < 32`, only; when the start offset is greater than `n - 32` no
window is loaded. -/
theorem simd_loads_inside_text (txt keyword : List Nat) (start : Nat) :
    (simd_str_search_loads txt keyword start).1 = simd_str_search txt keyword start ∧
    (∀ i ∈ (simd_str_search_loads txt keyword start).2,
      start ≤ i ∧ i + 32 ≤ strlen txt ∧
        mm256_loadu_si256 txt i = (List.range 32).map (fun k => cread txt (i + k))) ∧
    (strlen txt - 32 < start → (simd_str_search_loads txt keyword start).2 = []) := by
  refine ⟨?_, ?_, ?_⟩
  · unfold simd_str_search_loads simd_str_search
    simp only []
    split
    · rfl
    · exact simd_loop_loads_fst _ _ _ _ _ _
  · intro i hi
    unfold simd_str_search_loads at hi
    simp only [] at hi
    split at hi
    · simp at hi
    · rename_i hg
      have := simd_loop_loads_bound _ _ _ _ _ _ i hi
      exact ⟨this.1, by omega, rfl⟩
  · intro hs
    unfold simd_str_search_loads
    simp only []
    split
    · rfl
    · have h0 : strlen txt - 32 + 1 - start = 0 := by omega
      rw [h0]
      rfl

/-- Witness for C15: in a 36-byte text, the search for "ab" from offset 0 loads the
windows at 0, 1 and 2, and the search from offset 5 loads none. -/
theorem simd_loads_inside_text_witness :
    (simd_str_search_loads (bytes "xxabxxxxxxxxxxxxxxxxxxxxxxxxxxxxxxab") (bytes "ab") 0).2 =
      [0, 1, 2] ∧
    (simd_str_search_loads (bytes "xxabxxxxxxxxxxxxxxxxxxxxxxxxxxxxxxab") (bytes "ab") 5).2 =
      [] ∧
    (2 + 32 ≤ strlen (bytes "xxabxxxxxxxxxxxxxxxxxxxxxxxxxxxxxxab")) :=
  have h := simd_loads_inside_text (bytes "xxabxxxxxxxxxxxxxxxxxxxxxxxxxxxxxxab") (bytes "ab") 0
  have h5 := simd_loads_inside_text (bytes "xxabxxxxxxxxxxxxxxxxxxxxxxxxxxxxxxab") (bytes "ab") 5
  ⟨by decide, h5.2.2 (by decide), (h.2.1 2 (by decide)).2.1⟩

theorem calls_step (X : Option run) (S st : run) (offset r M : Nat)
    (h : ∃ st', X = some st' ∧ ∃ cs, st'.calls = S.calls ++ cs ∧
      cs.Pairwise (fun a b => a < b) ∧ (∀ c ∈ cs, r + 1 ≤ c ∧ c ≤ M) ∧
      cs.length + (r + 1) ≤ M + 1)
    (hS : S.calls = st.calls ++ [offset]) (hr : offset ≤ r) :
    ∃ st', X = some st' ∧ ∃ cs, st'.calls = st.calls ++ cs ∧
      cs.Pairwise (fun a b => a < b) ∧ (∀ c ∈ cs, offset ≤ c ∧ c ≤ M) ∧
      cs.length + offset ≤ M + 1 := by
  obtain ⟨st', e1, cs, e2, e3, e4, e5⟩ := h
  refine ⟨st', e1, offset :: cs, ?_, ?_, ?_, ?_⟩
  · rw [e2, hS, List.append_assoc]; rfl
  · rw [List.pairwise_cons]
    refine ⟨?_, e3⟩
    intro c hc
    have := e4 c hc
    omega
  · intro c hc
    rw [List.mem_cons] at hc
    rcases hc with hc | hc
    · subst hc; omega
    · have := e4 c hc
      omega
  · simp only [List.length_cons]
    omega

theorem search_one_loop_calls (search_f : str_search_t) (txt : text) (keyword : List Nat)
    (print_matches : Bool) (p : Nat → Bool) (M N : Nat) (hNM : N ≤ M)
    (hf : finds_first (search_f txt.contents keyword) p M N) :
    ∀ fuel offset st, offset ≤ M → M + 1 ≤ fuel + offset →
      ∃ st', search_one_loop search_f txt keyword print_matches fuel offset st = some st' ∧
        ∃ cs, st'.calls = st.calls ++ cs ∧ cs.Pairwise (fun a b => a < b) ∧
          (∀ c ∈ cs, offset ≤ c ∧ c ≤ M) ∧ cs.length + offset ≤ M + 1 := by
  intro fuel
  induction fuel with
  | zero => intro offset st h1 h2; omega
  | succ fuel ih =>
    intro offset st hoff hfuel
    unfold search_one_loop
    rcases hf offset hoff with ⟨h1, _⟩ | ⟨r, h1, h2, h3, _, _⟩
    · simp only [h1, if_true]
      refine ⟨_, rfl, [offset], rfl, List.pairwise_singleton _ _, ?_, ?_⟩
      · intro c hc
        simp only [List.mem_singleton] at hc
        subst hc
        exact ⟨le_refl _, hoff⟩
      · simp only [List.length_singleton]; omega
    · have hne : ((r : Int) = -1) = False := by
        apply propext
        constructor
        · intro h; omega
        · exact False.elim
      have hnext : ((r : Int) + 1).toNat = r + 1 := by omega
      simp only [h1, hne, if_false, hnext]
      split
      · apply calls_step _ _ st offset r M (ih (r + 1) _ (by omega) (by omega)) _ h2
        split <;> rfl
      · split
        · apply calls_step _ _ st offset r M (ih (r + 1) _ (by omega) (by omega)) _ h2
          split <;> split <;> rfl
        · apply calls_step _ _ st offset r M (ih (r + 1) _ (by omega) (by omega)) _ h2
          cases print_matches <;> simp only [Bool.false_eq_true, if_false, if_true] <;>
            split <;> split <;> rfl

/-- C16. For every NUL-terminated text, of length `n`, and every non-empty keyword, with
the brute-force or the library matcher and fuel for `n + 1` matcher calls, `search_one`
returns, the start offsets it passed to the matcher are strictly increasing, none of them
exceeds `n`, and there are at most `n + 1` of them. -/
theorem search_one_matcher_calls (txt : text) (keyword : List Nat) (print_matches : Bool)
    (fuel : Nat) (search_f : str_search_t)
    (hf : search_f = stupid_str_search ∨ search_f = regular_str_search)
    (hk : 0 < strlen keyword) (hfuel : strlen txt.contents + 1 ≤ fuel) :
    ∃ st, search_one_run fuel search_f txt keyword print_matches = some st ∧
      st.calls.Pairwise (fun a b => a < b) ∧
      (∀ c ∈ st.calls, c ≤ strlen txt.contents) ∧
      st.calls.length ≤ strlen txt.contents + 1 := by
  have hff : finds_first (search_f txt.contents keyword) (occurs_at txt.contents keyword)
      (strlen txt.contents) (strlen txt.contents) := by
    rcases hf with h | h
    · rw [h]; exact stupid_finds_first _ _
    · rw [h]; exact regular_finds_first _ _ hk
  obtain ⟨st, e1, cs, e2, e3, e4, e5⟩ := search_one_loop_calls search_f txt keyword
    print_matches (occurs_at txt.contents keyword) (strlen txt.contents) (strlen txt.contents)
    (le_refl _) hff fuel 0 ⟨0, [], [], [], []⟩ (Nat.zero_le _) (by omega)
  have hcs : st.calls = cs := by rw [e2]; rfl
  refine ⟨st, e1, ?_, ?_, ?_⟩
  · rw [hcs]; exact e3
  · rw [hcs]; intro c hc; exact (e4 c hc).2
  · rw [hcs]; omega

/-- Witness for C16: the text "cats category the cat sat", keyword "cat", library
matcher; the offsets passed to the matcher are 0, 1, 6 and 19. -/
theorem search_one_matcher_calls_witness :
    (search_one_run 26 regular_str_search ⟨"w", bytes "cats category the cat sat", 25⟩
        (bytes "cat") false).map (fun st => st.calls) = some [0, 1, 6, 19] ∧
      ∃ st, search_one_run 26 regular_str_search ⟨"w", bytes "cats category the cat sat", 25⟩
          (bytes "cat") false = some st ∧
        st.calls.Pairwise (fun a b => a < b) ∧
        (∀ c ∈ st.calls, c ≤ strlen (bytes "cats category the cat sat")) ∧
        st.calls.length ≤ strlen (bytes "cats category the cat sat") + 1 :=
  ⟨by decide, search_one_matcher_calls ⟨"w", bytes "cats category the cat sat", 25⟩
    (bytes "cat") false 26 regular_str_search (Or.inr rfl) (by decide) (by decide)⟩

theorem simd_guard (txt keyword : List Nat) (offset : Nat)
    (h : strlen txt < 32 ∨ strlen keyword > 32) : simd_str_search txt keyword offset = -1 := by
  unfold simd_str_search
  simp only [h, if_true]

theorem search_one_simd_wrapped (txt : text) (keyword : List Nat)
    (print_matches : Bool) (fuel : Nat)
    (ht : ∀ b ∈ txt.contents, b < 256) (hk : ∀ b ∈ keyword, b < 256)
    (hfuel : strlen txt.contents + 1 ≤ fuel) :
    ∃ sb ss, search_one_run fuel stupid_str_search txt keyword print_matches = some sb ∧
      search_one_run fuel simd_str_search txt keyword print_matches = some ss ∧
      search_one fuel stupid_str_search txt keyword print_matches =
        some (int_wrap (sb.hits.length : Int)) ∧
      search_one fuel simd_str_search txt keyword print_matches =
        some (int_wrap (ss.hits.length : Int)) ∧
      ((strlen txt.contents < 32 ∨ strlen keyword > 32) → ss.hits = []) ∧
      (¬ (strlen txt.contents < 32 ∨ strlen keyword > 32) →
        ss.hits = sb.hits.filter
          (fun x => decide (x ≤ (strlen txt.contents : Int) - 32))) ∧
      ss.hits.length ≤ sb.hits.length := by
  obtain ⟨sb, b1, b2, b3, _⟩ := search_one_loop_spec stupid_str_search txt keyword
    print_matches (occurs_at txt.contents keyword) (strlen txt.contents) (strlen txt.contents)
    (le_refl _) (stupid_finds_first txt.contents keyword) fuel 0 ⟨0, [], [], [], []⟩
    (Nat.zero_le _) (by omega) (by decide)
  have hb : search_one fuel stupid_str_search txt keyword print_matches =
      some (int_wrap (sb.hits.length : Int)) := by
    unfold search_one search_one_run
    rw [b1, Option.map_some', b2, b3]
    simp only [Int.zero_add, List.nil_append, List.length_map]
  by_cases hg : strlen txt.contents < 32 ∨ strlen keyword > 32
  · have hff : finds_first (simd_str_search txt.contents keyword)
        (occurs_at txt.contents keyword) 0 0 := by
      intro start _
      left
      exact ⟨simd_guard txt.contents keyword start hg,
        by intro k _ h; omega⟩
    obtain ⟨ss, s1, s2, s3, _⟩ := search_one_loop_spec simd_str_search txt keyword
      print_matches (occurs_at txt.contents keyword) 0 0 (le_refl _) hff fuel 0
      ⟨0, [], [], [], []⟩ (Nat.zero_le _) (by omega) (by decide)
    have hnil : ss.hits = [] := by
      rw [s3, hits_from_nil _ 0 0 (by intro k _ h; omega)]
      rfl
    have hs : search_one fuel simd_str_search txt keyword print_matches =
        some (int_wrap (ss.hits.length : Int)) := by
      unfold search_one search_one_run
      rw [s1, Option.map_some', s2, s3]
      simp only [Int.zero_add, List.nil_append, List.length_map]
    refine ⟨sb, ss, b1, s1, hb, hs, fun _ => hnil, fun h => absurd hg h, ?_⟩
    rw [hnil]
    exact Nat.zero_le _
  · have hn : 32 ≤ strlen txt.contents := by omega
    have hm : strlen keyword ≤ 32 := by omega
    obtain ⟨ss, s1, s2, s3, _⟩ := search_one_loop_spec simd_str_search txt keyword
      print_matches (occurs_at txt.contents keyword) (strlen txt.contents)
      (strlen txt.contents - 31) (by omega)
      (simd_finds_first txt.contents keyword hn hm ht hk) fuel 0
      ⟨0, [], [], [], []⟩ (Nat.zero_le _) (by omega) (by decide)
    have hs : search_one fuel simd_str_search txt keyword print_matches =
        some (int_wrap (ss.hits.length : Int)) := by
      unfold search_one search_one_run
      rw [s1, Option.map_some', s2, s3]
      simp only [Int.zero_add, List.nil_append, List.length_map]
    have hfil : ss.hits = sb.hits.filter
        (fun x => decide (x ≤ (strlen txt.contents : Int) - 32)) := by
      rw [s3, b3]
      simp only [List.nil_append]
      rw [List.filter_map, ← hits_from_filter_lt _ 0 (strlen txt.contents - 31)
        (strlen txt.contents) (by omega)]
      congr 1
      apply List.filter_congr
      intro x _
      rw [Bool.eq_iff_iff]
      simp only [Function.comp, decide_eq_true_eq, Int.ofNat_eq_coe]
      constructor <;> intro h <;> omega
    refine ⟨sb, ss, b1, s1, hb, hs, fun h => absurd h hg, fun _ => hfil, ?_⟩
    rw [hfil]
    exact List.length_filter_le _ _

theorem search_one_spaces (search_f : str_search_t) (nm : String) (n L N : Nat)
    (print_matches : Bool) (hN : N ≤ n)
    (hf : finds_first (search_f (List.replicate n 32) [32])
      (occurs_at (List.replicate n 32) [32]) n N) :
    search_one (n + 1) search_f ⟨nm, List.replicate n 32, L⟩ [32] print_matches =
      some (int_wrap (N : Int)) := by
  obtain ⟨st, e1, e2, _, _⟩ := search_one_loop_spec search_f ⟨nm, List.replicate n 32, L⟩ [32]
    print_matches (occurs_at (List.replicate n 32) [32]) n N hN hf (n + 1) 0
    ⟨0, [], [], [], []⟩ (Nat.zero_le _) (by omega) (by decide)
  unfold search_one search_one_run
  rw [e1, Option.map_some', e2]
  simp only [Int.zero_add]
  rw [spaces_hits nm n L N hN]

/-- C17, as stated, fails: in the text of `2^31` spaces with the keyword " " the
brute-force run counts `2^31` whole-word matches, which its `int` result cannot hold
(it is `-2^31`), and the vectorized run counts the `2^31 - 31` of them at offsets
`<= n - 32` and returns 2147483617, which is greater than the brute-force result; and in
the text of `2^31 + 31` spaces the vectorized run counts the `2^31` matches at offsets
`<= n - 32` and its `int` result is `-2^31`, not their number. -/
theorem search_one_simd_exceeds_overflowed_count :
    search_one (2147483648 + 1) stupid_str_search
      ⟨"spaces", List.replicate 2147483648 32, 2147483648⟩ [32] false = some (-2147483648) ∧
    search_one (2147483648 + 1) simd_str_search
      ⟨"spaces", List.replicate 2147483648 32, 2147483648⟩ [32] false = some 2147483617 ∧
    ¬ ((2147483617 : Int) ≤ -2147483648) ∧
    search_one (2147483679 + 1) simd_str_search
      ⟨"spaces", List.replicate 2147483679 32, 2147483679⟩ [32] false = some (-2147483648) := by
  refine ⟨?_, ?_, by decide, ?_⟩
  · have hf : finds_first (stupid_str_search (List.replicate 2147483648 32) [32])
        (occurs_at (List.replicate 2147483648 32) [32]) 2147483648 2147483648 := by
      have := stupid_finds_first (List.replicate 2147483648 32) [32]
      rw [spaces_strlen] at this
      exact this
    rw [search_one_spaces stupid_str_search "spaces" 2147483648 2147483648 2147483648 false
      (le_refl _) hf]
    rfl
  · have hf : finds_first (simd_str_search (List.replicate 2147483648 32) [32])
        (occurs_at (List.replicate 2147483648 32) [32]) 2147483648 2147483617 := by
      have := simd_finds_first (List.replicate 2147483648 32) [32]
        (by rw [spaces_strlen]; decide) (by decide) (spaces_lt _) (by decide)
      rw [spaces_strlen] at this
      exact this
    rw [search_one_spaces simd_str_search "spaces" 2147483648 2147483648 2147483617 false
      (by decide) hf]
    rfl
  · have hf : finds_first (simd_str_search (List.replicate 2147483679 32) [32])
        (occurs_at (List.replicate 2147483679 32) [32]) 2147483679 2147483648 := by
      have := simd_finds_first (List.replicate 2147483679 32) [32]
        (by rw [spaces_strlen]; decide) (by decide) (spaces_lt _) (by decide)
      rw [spaces_strlen] at this
      exact this
    rw [search_one_spaces simd_str_search "spaces" 2147483679 2147483679 2147483648 false
      (by decide) hf]
    rfl

/-- C17, amended. For every text, of length `n`, and keyword of length `m` (bytes being
values below 256), with fuel for `n + 1` matcher calls, `search_one` returns with the
vectorized and with the brute-force matcher; the vectorized run counts nothing and
returns 0 when `n < 32` or `m > 32`, and otherwise counts exactly the indices the
brute-force run counts that are `<= n - 32`, and returns their number when it is below
`2^31`; and when the brute-force run counts fewer than `2^31` indices, each result is the
number of indices counted and the vectorized result is never greater than the
brute-force result. -/
theorem search_one_simd_never_overcounts (txt : text) (keyword : List Nat)
    (print_matches : Bool) (fuel : Nat)
    (ht : ∀ b ∈ txt.contents, b < 256) (hk : ∀ b ∈ keyword, b < 256)
    (hfuel : strlen txt.contents + 1 ≤ fuel) :
    ∃ sb ss, search_one_run fuel stupid_str_search txt keyword print_matches = some sb ∧
      search_one_run fuel simd_str_search txt keyword print_matches = some ss ∧
      ((strlen txt.contents < 32 ∨ strlen keyword > 32) →
        ss.hits = [] ∧
          search_one fuel simd_str_search txt keyword print_matches = some 0) ∧
      (¬ (strlen txt.contents < 32 ∨ strlen keyword > 32) →
        ss.hits = sb.hits.filter
          (fun x => decide (x ≤ (strlen txt.contents : Int) - 32))) ∧
      ss.hits.length ≤ sb.hits.length ∧
      (ss.hits.length < 2147483648 →
        search_one fuel simd_str_search txt keyword print_matches =
          some (ss.hits.length : Int)) ∧
      (sb.hits.length < 2147483648 →
        ∃ cb cs : Int,
          search_one fuel stupid_str_search txt keyword print_matches = some cb ∧
          search_one fuel simd_str_search txt keyword print_matches = some cs ∧
          cb = (sb.hits.length : Int) ∧ cs = (ss.hits.length : Int) ∧ cs ≤ cb) := by
  obtain ⟨sb, ss, h1, h2, h3, h4, h5, h6, h7⟩ :=
    search_one_simd_wrapped txt keyword print_matches fuel ht hk hfuel
  refine ⟨sb, ss, h1, h2, ?_, h6, h7, ?_, ?_⟩
  · intro hg
    refine ⟨h5 hg, ?_⟩
    rw [h4, h5 hg]
    rfl
  · intro hlt
    rw [h4, int_wrap_of_lt _ hlt]
  intro hlt
  refine ⟨(sb.hits.length : Int), (ss.hits.length : Int), ?_, ?_, rfl, rfl, by omega⟩
  · rw [h3, int_wrap_of_lt _ hlt]
  · rw [h4, int_wrap_of_lt _ (by omega)]

/-- Witness for C17 (amended): in the 41-byte text "a cat sat on the mat; look, the other
cat" the brute-force run counts the indices 2 and 38 and returns 2, the vectorized run
counts index 2 only and returns 1. -/
theorem search_one_simd_never_overcounts_witness :
    search_one 42 stupid_str_search ⟨"w", bytes "a cat sat on the mat; look, the other cat", 41⟩
        (bytes "cat") false = some 2 ∧
      search_one 42 simd_str_search ⟨"w", bytes "a cat sat on the mat; look, the other cat", 41⟩
        (bytes "cat") false = some 1 := by
  obtain ⟨sb, ss, h1, h2, _, _, _, _, hb⟩ := search_one_simd_never_overcounts
    ⟨"w", bytes "a cat sat on the mat; look, the other cat", 41⟩ (bytes "cat") false 42
    (by decide) (by decide) (by decide)
  have hl1 : (search_one_run 42 stupid_str_search
      ⟨"w", bytes "a cat sat on the mat; look, the other cat", 41⟩ (bytes "cat") false).map
        (fun st => st.hits.length) = some 2 := by decide
  have hl2 : (search_one_run 42 simd_str_search
      ⟨"w", bytes "a cat sat on the mat; look, the other cat", 41⟩ (bytes "cat") false).map
        (fun st => st.hits.length) = some 1 := by decide
  rw [h1, Option.map_some', Option.some.injEq] at hl1
  rw [h2, Option.map_some', Option.some.injEq] at hl2
  obtain ⟨cb, cs, e1, e2, e3, e4, _⟩ := hb (by omega)
  rw [e1, e2, e3, e4, hl1, hl2]
  exact ⟨rfl, rfl⟩

end FastConcordance
